import Mathlib

/-!
# ascii_roulette: the UI state reducer (`ui/reducer.go`)

A shallow embedding of `StateReducer` and its seven field reducers, together with
the parts of the Go runtime the input reducer calls: UTF-8 decoding and encoding
(`unicode/utf8`), `unicode.IsPrint`, and leftmost-first regular-expression
replacement (`regexp.ReplaceAllString`).

Conventions.
* A Go `string` is a list of bytes; a byte is a natural number below 256.
* A Go `rune` (an `int32`) is an integer, of type `Int`.
* `unicode.IsPrint` is table driven.  Its Latin-1 part is fixed and is written out;
  membership of a code point above U+00FF in `unicode.PrintRanges` depends on the
  Unicode version of the toolchain and is taken as a parameter `tbl`.
-/

namespace AsciiRoulette

/-! ## Go strings and runes -/

/-- Go `string`: an immutable sequence of bytes. -/
abbrev GoString := List Nat

/-- The bytes of a string literal (UTF-8, as the Go compiler stores it);
the literals of the reducer are all ASCII. -/
def lit (s : String) : GoString := s.toList.map Char.toNat

/-! ## `unicode/utf8` -/

/-- Constant `utf8.RuneError`, the replacement character U+FFFD. -/
def RuneError : Int := 0xFFFD

/-- Table `first` of `unicode/utf8`: information about the first byte of a
sequence.  `0xF0` is `as` (ASCII), `0xF1` is `xx` (invalid); otherwise the low
three bits are the sequence length and the high four bits index `acceptRanges`. -/
def first (b : Nat) : Nat :=
  if b < 0x80 then 0xF0
  else if b < 0xC2 then 0xF1
  else if b < 0xE0 then 0x02
  else if b = 0xE0 then 0x13
  else if b < 0xED then 0x03
  else if b = 0xED then 0x23
  else if b < 0xF0 then 0x03
  else if b = 0xF0 then 0x34
  else if b < 0xF4 then 0x04
  else if b = 0xF4 then 0x44
  else 0xF1

/-- Table `acceptRanges` of `unicode/utf8`: the range allowed for the second byte. -/
def acceptRanges (i : Nat) : Nat × Nat :=
  match i with
  | 0 => (0x80, 0xBF)
  | 1 => (0xA0, 0xBF)
  | 2 => (0x80, 0x9F)
  | 3 => (0x90, 0xBF)
  | 4 => (0x80, 0x8F)
  | _ => (0, 0)

/-- Function `utf8.DecodeRuneInString`: the first rune of `s` and its width in bytes;
`(RuneError, 0)` on the empty string and `(RuneError, 1)` on an invalid encoding. -/
def DecodeRuneInString (s : GoString) : Int × Nat :=
  let n := s.length
  if n < 1 then (RuneError, 0)
  else
    let s0 := s.getD 0 0
    let x := first s0
    if x ≥ 0xF0 then
      (if x &&& 1 = 1 then RuneError else (s0 : Int), 1)
    else
      let sz := x &&& 7
      let accept := acceptRanges (x >>> 4)
      if n < sz then (RuneError, 1)
      else
        let s1 := s.getD 1 0
        if s1 < accept.1 ∨ accept.2 < s1 then (RuneError, 1)
        else if sz ≤ 2 then
          ((((s0 &&& 0x1F) <<< 6 ||| (s1 &&& 0x3F) : Nat) : Int), 2)
        else
          let s2 := s.getD 2 0
          if s2 < 0x80 ∨ 0xBF < s2 then (RuneError, 1)
          else if sz ≤ 3 then
            ((((s0 &&& 0x0F) <<< 12 ||| (s1 &&& 0x3F) <<< 6 ||| (s2 &&& 0x3F) : Nat) : Int), 3)
          else
            let s3 := s.getD 3 0
            if s3 < 0x80 ∨ 0xBF < s3 then (RuneError, 1)
            else
              ((((s0 &&& 0x07) <<< 18 ||| (s1 &&& 0x3F) <<< 12 |||
                  (s2 &&& 0x3F) <<< 6 ||| (s3 &&& 0x3F) : Nat) : Int), 4)

/-- A continuation byte `10xxxxxx`. -/
def IsCont (b : Nat) : Prop := 0x80 ≤ b ∧ b ≤ 0xBF

/-- Bytes `a b` form a well-formed two-byte sequence. -/
def Seq2 (a b : Nat) : Prop := 0xC2 ≤ a ∧ a ≤ 0xDF ∧ IsCont b

/-- Bytes `a b c` form a well-formed three-byte sequence (no overlong form, no
surrogate). -/
def Seq3 (a b c : Nat) : Prop :=
  ((a = 0xE0 ∧ 0xA0 ≤ b ∧ b ≤ 0xBF) ∨ (0xE1 ≤ a ∧ a ≤ 0xEC ∧ IsCont b) ∨
    (a = 0xED ∧ 0x80 ≤ b ∧ b ≤ 0x9F) ∨ (0xEE ≤ a ∧ a ≤ 0xEF ∧ IsCont b)) ∧ IsCont c

/-- Bytes `a b c d` form a well-formed four-byte sequence (no overlong form, at most
U+10FFFF). -/
def Seq4 (a b c d : Nat) : Prop :=
  ((a = 0xF0 ∧ 0x90 ≤ b ∧ b ≤ 0xBF) ∨ (0xF1 ≤ a ∧ a ≤ 0xF3 ∧ IsCont b) ∨
    (a = 0xF4 ∧ 0x80 ≤ b ∧ b ≤ 0x8F)) ∧ IsCont c ∧ IsCont d

/-- The rune of a two-byte sequence. -/
def val2 (a b : Nat) : Int := (((a &&& 0x1F) <<< 6 ||| (b &&& 0x3F) : Nat) : Int)

/-- The rune of a three-byte sequence. -/
def val3 (a b c : Nat) : Int :=
  (((a &&& 0x0F) <<< 12 ||| (b &&& 0x3F) <<< 6 ||| (c &&& 0x3F) : Nat) : Int)

/-- The rune of a four-byte sequence. -/
def val4 (a b c d : Nat) : Int :=
  (((a &&& 0x07) <<< 18 ||| (b &&& 0x3F) <<< 12 ||| (c &&& 0x3F) <<< 6 ||| (d &&& 0x3F) : Nat) :
    Int)

/-- The five outcomes of `DecodeRuneInString` on a non-empty string. -/
inductive DecodeView : GoString → Int × Nat → Prop
  | ascii (a : Nat) (t : GoString) : a < 0x80 → DecodeView (a :: t) ((a : Int), 1)
  | two (a b : Nat) (t : GoString) : Seq2 a b → DecodeView (a :: b :: t) (val2 a b, 2)
  | three (a b c : Nat) (t : GoString) :
      Seq3 a b c → DecodeView (a :: b :: c :: t) (val3 a b c, 3)
  | four (a b c d : Nat) (t : GoString) :
      Seq4 a b c d → DecodeView (a :: b :: c :: d :: t) (val4 a b c d, 4)
  | bad (a : Nat) (t : GoString) : 0x80 ≤ a → DecodeView (a :: t) (RuneError, 1)

/-- Function `utf8.RuneStart`: the byte is not a continuation byte `10xxxxxx`. -/
def RuneStart (b : Nat) : Bool := b &&& 0xC0 != 0x80

/-- The backward scan of `utf8.DecodeLastRuneInString`:
`for start--; start >= lim; start-- { if RuneStart(s[start]) { break } }`
followed by `if start < 0 { start = 0 }`.  The argument `k` is `start + 1` on entry
of an iteration, so that the truncated subtraction `k - 1` is the clamped `start`. -/
def scanBack (s : GoString) (lim : Nat) : Nat → Nat → Nat
  | 0, k => k - 1
  | n + 1, k =>
    if lim < k then
      if RuneStart (s.getD (k - 1) 0) then k - 1 else scanBack s lim n (k - 1)
    else k - 1

/-- Function `utf8.DecodeLastRuneInString`: the last rune of `s` and its width. -/
def DecodeLastRuneInString (s : GoString) : Int × Nat :=
  let stop := s.length
  if stop = 0 then (RuneError, 0)
  else
    let r := s.getD (stop - 1) 0
    if r < 0x80 then ((r : Int), 1)
    else
      let lim := stop - 4
      let start := scanBack s lim stop (stop - 1)
      let d := DecodeRuneInString (s.drop start)
      if start + d.2 ≠ stop then (RuneError, 1) else d

/-- The three-byte form of `utf8.EncodeRune`. -/
def encode3 (n : Nat) : GoString :=
  [0xE0 ||| (n >>> 12) % 256, 0x80 ||| ((n >>> 6) % 256 &&& 0x3F), 0x80 ||| (n % 256 &&& 0x3F)]

/-- Conversion `string(r)` of a rune (`utf8.EncodeRune`): the UTF-8 encoding of `r`;
a rune that is negative, above U+10FFFF or a surrogate encodes as U+FFFD. -/
def EncodeRune (r : Int) : GoString :=
  let n := r.toNat
  if 0 ≤ r ∧ r ≤ 0x7F then [n]
  else if 0 ≤ r ∧ r ≤ 0x7FF then
    [0xC0 ||| (n >>> 6) % 256, 0x80 ||| (n % 256 &&& 0x3F)]
  else if r < 0 ∨ 0x10FFFF < r ∨ (0xD800 ≤ r ∧ r ≤ 0xDFFF) then encode3 0xFFFD
  else if r ≤ 0xFFFF then encode3 n
  else
    [0xF0 ||| (n >>> 18) % 256, 0x80 ||| ((n >>> 12) % 256 &&& 0x3F),
      0x80 ||| ((n >>> 6) % 256 &&& 0x3F), 0x80 ||| (n % 256 &&& 0x3F)]

/-- Conversion `string(rs)` of a `[]rune`: the concatenated encodings. -/
def encodeRunes (rs : List Int) : GoString :=
  match rs with
  | [] => []
  | r :: rest => EncodeRune r ++ encodeRunes rest

/-- The loop `for _, r := range s`, with `n` bounding the number of iterations:
the runes of `s` in order, an invalid byte giving `RuneError` and width 1. -/
def rangeRunesAux : Nat → GoString → List Int
  | 0, _ => []
  | n + 1, s =>
    match s with
    | [] => []
    | _ :: _ =>
      let d := DecodeRuneInString s
      d.1 :: rangeRunesAux n (s.drop d.2)

/-- The runes a `range` loop over `s` yields; every iteration consumes at least one
byte, so `s.length` iterations suffice. -/
def rangeRunes (s : GoString) : List Int := rangeRunesAux s.length s

/-- A rune is a Unicode scalar value: what `range` and `string(r)` preserve. -/
def ValidRune (r : Int) : Prop :=
  0 ≤ r ∧ r ≤ 0x10FFFF ∧ ¬ (0xD800 ≤ r ∧ r ≤ 0xDFFF)

instance (r : Int) : Decidable (ValidRune r) := by
  unfold ValidRune; exact inferInstance

/-! ## `unicode.IsPrint` -/

/-- The Latin-1 part of `unicode.IsPrint` (table `properties`, flag `pp`): the ASCII
space, the graphic ASCII characters and U+00A1..U+00FF except the soft hyphen. -/
def latin1Print (n : Nat) : Bool :=
  (0x20 ≤ n && n ≤ 0x7E) || (0xA1 ≤ n && n ≤ 0xFF && n != 0xAD)

/-- Function `unicode.IsPrint`.  For a rune above U+00FF the answer is membership in
`unicode.PrintRanges` (categories L, M, N, P, S), the parameter `tbl`; a negative
rune is in no range table. -/
def IsPrint (tbl : Int → Bool) (r : Int) : Bool :=
  if r < 0 then false
  else if r ≤ 0xFF then latin1Print r.toNat
  else tbl r

/-- What holds of `unicode.PrintRanges` in every Unicode version, and is assumed of
the parameter `tbl` where a claim needs it: the table holds scalar values only, and it
holds the replacement character U+FFFD (category So). -/
def PrintTable (tbl : Int → Bool) : Prop :=
  (∀ x, tbl x = true → ValidRune x) ∧ tbl 0xFFFD = true

/-- A table for concrete evaluations, U+0100..U+D7FF and U+FFFD; it stands in for
`unicode.PrintRanges` on the runes an evaluation consults. -/
def sampleTable : Int → Bool := fun x => (0x100 ≤ x && x ≤ 0xD7FF) || x == 0xFFFD

/-! ## `regexp`: leftmost-first matching -/

/-- Regular expressions, as far as `ansiRegex` needs them.  `opt` and `star` are the
greedy `?` and `*`. -/
inductive Re where
  | cls (p : Int → Bool)
  | seq (a b : Re)
  | alt (a b : Re)
  | opt (a : Re)
  | star (a : Re)

/-- Greedy iteration of a matcher `f`: the remainders after zero or more rounds of
`f`, those after more rounds first.  A round that consumes nothing is not repeated. -/
def starLoop (f : GoString → List GoString) : Nat → GoString → List GoString
  | 0, s => [s]
  | n + 1, s =>
    (((f s).filter (fun t => decide (t.length < s.length))).map (starLoop f n)).flatten ++ [s]

/-- Backtracking matcher: the remainders of `s` after every way `re` matches a
prefix of `s`, in the order a backtracking search tries them.  The head of the list
is the match Go's `regexp` reports at this position (leftmost-first semantics).
A character class consumes one rune, decoded as `regexp` decodes its input. -/
def matchRe : Re → GoString → List GoString
  | .cls p, s =>
    match s with
    | [] => []
    | _ :: _ =>
      let d := DecodeRuneInString s
      if p d.1 then [s.drop d.2] else []
  | .seq a b, s => ((matchRe a s).map (matchRe b)).flatten
  | .alt a b, s => matchRe a s ++ matchRe b s
  | .opt a, s => matchRe a s ++ [s]
  | .star a, s => starLoop (matchRe a) s.length s

/-- Method `(*Regexp).ReplaceAllString(s, "")` with `n` bounding the number of
steps: scan from the left; where `re` matches a non-empty prefix drop it and go on
after it, otherwise keep the bytes of one rune and go on after them. -/
def replaceAllAux (re : Re) : Nat → GoString → GoString
  | 0, s => s
  | n + 1, s =>
    match s with
    | [] => []
    | _ :: _ =>
      let w := (DecodeRuneInString s).2
      match matchRe re s with
      | [] => s.take w ++ replaceAllAux re n (s.drop w)
      | t :: _ =>
        if t.length < s.length then replaceAllAux re n t
        else s.take w ++ replaceAllAux re n (s.drop w)

/-- Method `(*Regexp).ReplaceAllString(s, "")`. -/
def ReplaceAllString (re : Re) (s : GoString) : GoString := replaceAllAux re s.length s

/-- Some substring of `s` matches `re`: at some byte offset of `s` a prefix of the
rest matches. -/
def containsMatch (re : Re) (s : GoString) : Bool :=
  (List.range (s.length + 1)).any (fun i => !(matchRe re (s.drop i)).isEmpty)

/-- Bounded repetition `a{lo,hi}` as `regexp/syntax` simplifies it:
`a{0,2}` is `(a(a)?)?` and `a{1,3}` is `a(a(a)?)?`. -/
def upTo (a : Re) : Nat → Re
  | 0 => .opt a
  | n + 1 => .opt (.seq a (upTo a n))

/-- The class of one literal rune. -/
def chr (c : Int) : Re := .cls (fun r => r == c)

/-- Class `\d`: ASCII digits. -/
def isDigit (r : Int) : Bool := 0x30 ≤ r && r ≤ 0x39

/-- Class `[a-zA-Z\d]`. -/
def isAlnum (r : Int) : Bool :=
  (0x61 ≤ r && r ≤ 0x7A) || (0x41 ≤ r && r ≤ 0x5A) || isDigit r

/-- Class `[\u001B\u009B]`: ESC and the C1 control CSI. -/
def isIntro (r : Int) : Bool := r == 0x1B || r == 0x9B

/-- Class `[[\]()#;?]`. -/
def isPunct (r : Int) : Bool :=
  r == 0x5B || r == 0x5D || r == 0x28 || r == 0x29 || r == 0x23 || r == 0x3B || r == 0x3F

/-- Class `[\dA-PRZcf-ntqry=><~]`. -/
def isFinal (r : Int) : Bool :=
  isDigit r || (0x41 ≤ r && r ≤ 0x50) || r == 0x52 || r == 0x5A || r == 0x63 ||
    (0x66 ≤ r && r ≤ 0x6E) || r == 0x74 || r == 0x71 || r == 0x72 || r == 0x79 ||
    r == 0x3D || r == 0x3E || r == 0x3C || r == 0x7E

/-- First alternative: `(?:[a-zA-Z\d]*(?:;[a-zA-Z\d]*)*)?\u0007`. -/
def ansiBel : Re :=
  .seq (.opt (.seq (.star (.cls isAlnum)) (.star (.seq (chr 0x3B) (.star (.cls isAlnum))))))
    (chr 0x07)

/-- Second alternative: `(?:\d{1,4}(?:;\d{0,4})*)?[\dA-PRZcf-ntqry=><~]`. -/
def ansiCsi : Re :=
  .seq (.opt (.seq (.seq (.cls isDigit) (upTo (.cls isDigit) 2))
      (.star (.seq (chr 0x3B) (upTo (.cls isDigit) 3)))))
    (.cls isFinal)

/-- Variable `ansiRegex`:
`[\u001B\u009B][[\]()#;?]*(?:(?:(?:[a-zA-Z\d]*(?:;[a-zA-Z\d]*)*)?\u0007)|`
`(?:(?:\d{1,4}(?:;\d{0,4})*)?[\dA-PRZcf-ntqry=><~]))`. -/
def ansiRegex : Re :=
  .seq (.cls isIntro) (.seq (.star (.cls isPunct)) (.alt ansiBel ansiCsi))

/-! ## The data model (`ui` package) -/

/-- Type `image.Image` of the Go standard library, an interface value: `none` is
`nil` (the absent image), `some n` a decoded frame, identified by `n`. -/
abbrev Image := Option Nat

/-- Modelled from the spec: type `Page`, declared outside `reducer.go`; the view
selector, an opaque enumeration of the host application. -/
abbrev Page := Int

/-- Modelled from the spec: type `term.WinSize`, declared outside `reducer.go`; the
terminal dimensions (rows, columns) as last reported. -/
structure WinSize where
  Rows : Nat
  Cols : Nat
  deriving DecidableEq, Repr

/-- Modelled from the spec: type `MessageType`, declared outside `reducer.go`, with
the four constants the reducer uses. -/
inductive MessageType where
  | MessageTypeOutgoing
  | MessageTypeIncoming
  | MessageTypeInfo
  | MessageTypeError
  deriving DecidableEq, Repr

/-- Modelled from the spec: type `Message`, declared outside `reducer.go`; one line
of the transcript, with the three fields the reducer sets (field `Type` is `Typ`
here). -/
structure Message where
  Typ : MessageType
  User : GoString
  Text : GoString
  deriving DecidableEq, Repr

/-- Modelled from the spec: type `EndConnReason`, declared outside `reducer.go`; why
a connection ended, one of the six reasons the reducer switches on. -/
inductive EndConnReason where
  | EndConnSetupError
  | EndConnMatchError
  | EndConnNormal
  | EndConnTimedOut
  | EndConnDisconnected
  | EndConnGone
  deriving DecidableEq, Repr

/-- Modelled from the spec: type `LogLevel`, declared outside `reducer.go`; info or
error. -/
inductive LogLevel where
  | LogLevelInfo
  | LogLevelError
  deriving DecidableEq, Repr

/-- Modelled from the spec: type `Event` and the event types, declared outside
`reducer.go`.  `Event` is an interface: the thirteen event types the reducers switch
on, with the payloads the reducers read, and `OtherEvent` for a value of any other
dynamic type (the `default` arms).  `FrameEvent none` is the nil event: a
`FrameEvent` holding no image is the nil interface value. -/
inductive Event where
  | ConnStartedEvent
  | ConnEndedEvent (Reason : EndConnReason)
  | DataOpenedEvent
  | ReceivedChatEvent (text : GoString)
  | SentMessageEvent (text : GoString)
  | FrameEvent (img : Image)
  | KeypressEvent (r : Int)
  | BackspaceEvent
  | SetPageEvent (p : Page)
  | ResizeEvent (w : WinSize)
  | ToggleHelpEvent
  | SkipEvent
  | LogEvent (Level : LogLevel) (Text : GoString)
  | OtherEvent (tag : Nat)
  deriving DecidableEq, Repr

/-- Modelled from the spec: type `State`, declared outside `reducer.go`; the
snapshot the renderer paints, with the seven fields `StateReducer` assigns. -/
structure State where
  Image : AsciiRoulette.Image
  ChatActive : Bool
  Input : GoString
  Messages : List Message
  Page : AsciiRoulette.Page
  WinSize : AsciiRoulette.WinSize
  HelpOn : Bool
  deriving DecidableEq, Repr

/-- Modelled from the spec: the state at startup; no image, chat inactive, empty
input and transcript, zero page and window size, help off. -/
def initialState : State :=
  { Image := none, ChatActive := false, Input := [], Messages := [], Page := 0,
    WinSize := { Rows := 0, Cols := 0 }, HelpOn := false }

/-- A state with the chat open and input buffer `i`, all else as at startup. -/
def chatting (i : GoString) : State :=
  { initialState with ChatActive := true, Input := i }

/-! ## The reducers (`ui/reducer.go`) -/

open Event MessageType EndConnReason LogLevel

/-- Function `chatActiveReducer`. -/
def chatActiveReducer (s : Bool) (event : Event) : Bool :=
  match event with
  | DataOpenedEvent => true
  | ConnEndedEvent _ => false
  | _ => s

/-- Function `helpOnReducer`. -/
def helpOnReducer (s : Bool) (event : Event) : Bool :=
  match event with
  | ToggleHelpEvent => !s
  | SkipEvent => false
  | SentMessageEvent _ => false
  | _ => s

/-- Function `pageReducer`. -/
def pageReducer (s : Page) (event : Event) : Page :=
  match event with
  | SetPageEvent e => e
  | _ => s

/-- Function `winSizeReducer`. -/
def winSizeReducer (s : WinSize) (event : Event) : WinSize :=
  match event with
  | ResizeEvent e => e
  | _ => s

/-- Function `inputReducer`. -/
def inputReducer (tbl : Int → Bool) (s : GoString) (chatActive : Bool) (event : Event) :
    GoString :=
  match event with
  | ConnStartedEvent => []
  | KeypressEvent e =>
    if !chatActive then s
    else
      let s := s ++ EncodeRune e
      let s := ReplaceAllString ansiRegex s
      let printable := (rangeRunes s).filter (fun r => IsPrint tbl r)
      encodeRunes printable
  | BackspaceEvent =>
    if !chatActive then s
    else if s.length = 0 then s
    else
      let sz := (DecodeLastRuneInString s).2
      s.take (s.length - sz)
  | SentMessageEvent _ => []
  | _ => s

/-- Function `imageReducer`.  `FrameEvent` is itself an interface type, so a
`FrameEvent` that carries the nil image is the nil interface value: it matches no
case of the type switch and takes the `default` arm, here as in every reducer. -/
def imageReducer (s : Image) (event : Event) : Image :=
  match event with
  | FrameEvent (some e) => some e
  | SetPageEvent _ => none
  | SkipEvent => none
  | _ => s

/-- Function `messagesReducer`. -/
def messagesReducer (s : List Message) (event : Event) : List Message :=
  match event with
  | SentMessageEvent e =>
    s ++ [{ Typ := MessageTypeOutgoing, User := lit "You", Text := e }]
  | ReceivedChatEvent e =>
    s ++ [{ Typ := MessageTypeIncoming, User := lit "Them", Text := e }]
  | ConnEndedEvent reason =>
    match reason with
    | EndConnSetupError => s
    | EndConnMatchError => s
    | EndConnNormal => s ++ [{ Typ := MessageTypeInfo, User := [], Text := lit "Skipping..." }]
    | EndConnTimedOut =>
      s ++ [{ Typ := MessageTypeError, User := [], Text := lit "Connection timed out." }]
    | EndConnDisconnected =>
      s ++ [{ Typ := MessageTypeError, User := [], Text := lit "Lost connection." }]
    | EndConnGone =>
      s ++ [{ Typ := MessageTypeInfo, User := [], Text := lit "Your partner left the chat." }]
  | ConnStartedEvent => s ++ [{ Typ := MessageTypeInfo, User := [], Text := lit "Connected" }]
  | LogEvent level text =>
    let mtype := if level = LogLevelError then MessageTypeError else MessageTypeInfo
    s ++ [{ Typ := mtype, User := [], Text := text }]
  | _ => s

/-- Function `StateReducer`: the seven assignments in source order, each reading the
local copy `s` as the assignments before it left it. -/
def StateReducer (tbl : Int → Bool) (s : State) (event : Event) : State :=
  let s := { s with Image := imageReducer s.Image event }
  let s := { s with ChatActive := chatActiveReducer s.ChatActive event }
  let s := { s with Input := inputReducer tbl s.Input s.ChatActive event }
  let s := { s with Messages := messagesReducer s.Messages event }
  let s := { s with Page := pageReducer s.Page event }
  let s := { s with WinSize := winSizeReducer s.WinSize event }
  let s := { s with HelpOn := helpOnReducer s.HelpOn event }
  s

/-- The sanitisation the keypress branch of `inputReducer` applies to the buffer:
delete every match of `ansiRegex`, then delete every rune that is not printable. -/
def sanitize (tbl : Int → Bool) (b : GoString) : GoString :=
  encodeRunes ((rangeRunes (ReplaceAllString ansiRegex b)).filter (fun r => IsPrint tbl r))

/-- The input buffer is sanitised: no rune a `range` loop yields from it is
unprintable, and no substring of it matches `ansiRegex`. -/
def Sanitised (tbl : Int → Bool) (s : GoString) : Prop :=
  (rangeRunes s).all (fun r => IsPrint tbl r) = true ∧ containsMatch ansiRegex s = false

instance (tbl : Int → Bool) (s : GoString) : Decidable (Sanitised tbl s) := by
  unfold Sanitised; exact inferInstance

/-- The reducer folded over a sequence of events, oldest first. -/
def run (tbl : Int → Bool) (s : State) (events : List Event) : State :=
  events.foldl (StateReducer tbl) s

/-! ## `unicode/utf8`: decoding one rune -/

theorem first_cases (b : Nat) :
    (b < 0x80 ∧ first b = 0xF0) ∨
    ((0x80 ≤ b ∧ b < 0xC2 ∨ 0xF5 ≤ b) ∧ first b = 0xF1) ∨
    (0xC2 ≤ b ∧ b < 0xE0 ∧ first b = 0x02) ∨
    (b = 0xE0 ∧ first b = 0x13) ∨
    ((0xE1 ≤ b ∧ b < 0xED ∨ b = 0xEE ∨ b = 0xEF) ∧ first b = 0x03) ∨
    (b = 0xED ∧ first b = 0x23) ∨
    (b = 0xF0 ∧ first b = 0x34) ∨
    (0xF1 ≤ b ∧ b < 0xF4 ∧ first b = 0x04) ∨
    (b = 0xF4 ∧ first b = 0x44) := by
  by_cases h1 : b < 0x80
  · exact Or.inl ⟨h1, by unfold first; rw [if_pos h1]⟩
  by_cases h2 : b < 0xC2
  · exact Or.inr (Or.inl ⟨Or.inl ⟨by omega, h2⟩, by unfold first; rw [if_neg h1, if_pos h2]⟩)
  by_cases h3 : b < 0xE0
  · exact Or.inr (Or.inr (Or.inl ⟨by omega, h3, by
      unfold first; rw [if_neg h1, if_neg h2, if_pos h3]⟩))
  by_cases h4 : b = 0xE0
  · exact Or.inr (Or.inr (Or.inr (Or.inl ⟨h4, by
      unfold first; rw [if_neg h1, if_neg h2, if_neg h3, if_pos h4]⟩)))
  by_cases h5 : b < 0xED
  · exact Or.inr (Or.inr (Or.inr (Or.inr (Or.inl ⟨Or.inl ⟨by omega, h5⟩, by
      unfold first; rw [if_neg h1, if_neg h2, if_neg h3, if_neg h4, if_pos h5]⟩))))
  by_cases h6 : b = 0xED
  · exact Or.inr (Or.inr (Or.inr (Or.inr (Or.inr (Or.inl ⟨h6, by
      unfold first; rw [if_neg h1, if_neg h2, if_neg h3, if_neg h4, if_neg h5, if_pos h6]⟩)))))
  by_cases h7 : b < 0xF0
  · exact Or.inr (Or.inr (Or.inr (Or.inr (Or.inl ⟨Or.inr (by omega), by
      unfold first
      rw [if_neg h1, if_neg h2, if_neg h3, if_neg h4, if_neg h5, if_neg h6, if_pos h7]⟩))))
  by_cases h8 : b = 0xF0
  · exact Or.inr (Or.inr (Or.inr (Or.inr (Or.inr (Or.inr (Or.inl ⟨h8, by
      unfold first
      rw [if_neg h1, if_neg h2, if_neg h3, if_neg h4, if_neg h5, if_neg h6, if_neg h7,
        if_pos h8]⟩))))))
  by_cases h9 : b < 0xF4
  · exact Or.inr (Or.inr (Or.inr (Or.inr (Or.inr (Or.inr (Or.inr (Or.inl ⟨by omega, h9, by
      unfold first
      rw [if_neg h1, if_neg h2, if_neg h3, if_neg h4, if_neg h5, if_neg h6, if_neg h7,
        if_neg h8, if_pos h9]⟩)))))))
  by_cases h10 : b = 0xF4
  · exact Or.inr (Or.inr (Or.inr (Or.inr (Or.inr (Or.inr (Or.inr (Or.inr ⟨h10, by
      unfold first
      rw [if_neg h1, if_neg h2, if_neg h3, if_neg h4, if_neg h5, if_neg h6, if_neg h7,
        if_neg h8, if_neg h9, if_pos h10]⟩)))))))
  · exact Or.inr (Or.inl ⟨Or.inr (by omega), by
      unfold first
      rw [if_neg h1, if_neg h2, if_neg h3, if_neg h4, if_neg h5, if_neg h6, if_neg h7,
        if_neg h8, if_neg h9, if_neg h10]⟩)

theorem decode_nil : DecodeRuneInString [] = (RuneError, 0) := rfl

/-- The decoder on a non-empty string, with the table lookup `first s0` named `x`. -/
theorem decode_cons (s0 : Nat) (t : GoString) (x : Nat) (hx : first s0 = x) :
    DecodeRuneInString (s0 :: t) =
      if x ≥ 0xF0 then (if x &&& 1 = 1 then RuneError else (s0 : Int), 1)
      else if t.length + 1 < x &&& 7 then (RuneError, 1)
      else if t.getD 0 0 < (acceptRanges (x >>> 4)).1 ∨ (acceptRanges (x >>> 4)).2 < t.getD 0 0
        then (RuneError, 1)
      else if x &&& 7 ≤ 2 then (val2 s0 (t.getD 0 0), 2)
      else if t.getD 1 0 < 0x80 ∨ 0xBF < t.getD 1 0 then (RuneError, 1)
      else if x &&& 7 ≤ 3 then (val3 s0 (t.getD 0 0) (t.getD 1 0), 3)
      else if t.getD 2 0 < 0x80 ∨ 0xBF < t.getD 2 0 then (RuneError, 1)
      else (val4 s0 (t.getD 0 0) (t.getD 1 0) (t.getD 2 0), 4) := by
  subst hx
  have h : ¬ (t.length + 1 < 1) := by omega
  unfold DecodeRuneInString val2 val3 val4
  simp only [List.length_cons, h, if_false, List.getD_cons_zero, List.getD_cons_succ]

theorem decode_ascii (s0 : Nat) (t : GoString) (h : s0 < 0x80) :
    DecodeRuneInString (s0 :: t) = ((s0 : Int), 1) := by
  have hf : first s0 = 0xF0 := by unfold first; rw [if_pos h]
  rw [decode_cons s0 t _ hf]
  rfl

theorem decode_xx (s0 : Nat) (t : GoString) (h : first s0 = 0xF1) :
    DecodeRuneInString (s0 :: t) = (RuneError, 1) := by
  rw [decode_cons s0 t _ h]
  rfl

/-- The two-byte class of `first`. -/
theorem decode_len2 (s0 : Nat) (t : GoString) (h : first s0 = 0x02) :
    DecodeRuneInString (s0 :: t) =
      if t.length + 1 < 2 then (RuneError, 1)
      else if t.getD 0 0 < 0x80 ∨ 0xBF < t.getD 0 0 then (RuneError, 1)
      else (val2 s0 (t.getD 0 0), 2) := by
  rw [decode_cons s0 t _ h]
  rfl

/-- The three-byte classes of `first`, with the accepted range `lo..hi` of the second
byte. -/
theorem decode_len3 (s0 : Nat) (t : GoString) (x lo hi : Nat) (h : first s0 = x)
    (hx : (x = 0x03 ∧ lo = 0x80 ∧ hi = 0xBF) ∨ (x = 0x13 ∧ lo = 0xA0 ∧ hi = 0xBF) ∨
      (x = 0x23 ∧ lo = 0x80 ∧ hi = 0x9F)) :
    DecodeRuneInString (s0 :: t) =
      if t.length + 1 < 3 then (RuneError, 1)
      else if t.getD 0 0 < lo ∨ hi < t.getD 0 0 then (RuneError, 1)
      else if t.getD 1 0 < 0x80 ∨ 0xBF < t.getD 1 0 then (RuneError, 1)
      else (val3 s0 (t.getD 0 0) (t.getD 1 0), 3) := by
  rw [decode_cons s0 t _ h]
  rcases hx with ⟨rfl, rfl, rfl⟩ | ⟨rfl, rfl, rfl⟩ | ⟨rfl, rfl, rfl⟩ <;> rfl

/-- The four-byte classes of `first`, with the accepted range `lo..hi` of the second
byte. -/
theorem decode_len4 (s0 : Nat) (t : GoString) (x lo hi : Nat) (h : first s0 = x)
    (hx : (x = 0x04 ∧ lo = 0x80 ∧ hi = 0xBF) ∨ (x = 0x34 ∧ lo = 0x90 ∧ hi = 0xBF) ∨
      (x = 0x44 ∧ lo = 0x80 ∧ hi = 0x8F)) :
    DecodeRuneInString (s0 :: t) =
      if t.length + 1 < 4 then (RuneError, 1)
      else if t.getD 0 0 < lo ∨ hi < t.getD 0 0 then (RuneError, 1)
      else if t.getD 1 0 < 0x80 ∨ 0xBF < t.getD 1 0 then (RuneError, 1)
      else if t.getD 2 0 < 0x80 ∨ 0xBF < t.getD 2 0 then (RuneError, 1)
      else (val4 s0 (t.getD 0 0) (t.getD 1 0) (t.getD 2 0), 4) := by
  rw [decode_cons s0 t _ h]
  rcases hx with ⟨rfl, rfl, rfl⟩ | ⟨rfl, rfl, rfl⟩ | ⟨rfl, rfl, rfl⟩ <;> rfl

theorem decode_seq2 (a b : Nat) (t : GoString) (h : Seq2 a b) :
    DecodeRuneInString (a :: b :: t) = (val2 a b, 2) := by
  obtain ⟨h1, h2, h3, h4⟩ := h
  have hf : first a = 0x02 := by
    rcases first_cases a with h | h | h | h | h | h | h | h | h <;> omega
  rw [decode_len2 a _ hf]
  simp only [List.length_cons, List.getD_cons_zero]
  rw [if_neg (by omega), if_neg (by omega)]

theorem decode_seq3 (a b c : Nat) (t : GoString) (h : Seq3 a b c) :
    DecodeRuneInString (a :: b :: c :: t) = (val3 a b c, 3) := by
  obtain ⟨h1, h2, h3⟩ := h
  unfold IsCont at h1
  have hf : ∃ x lo hi, first a = x ∧ ((x = 0x03 ∧ lo = 0x80 ∧ hi = 0xBF) ∨
      (x = 0x13 ∧ lo = 0xA0 ∧ hi = 0xBF) ∨ (x = 0x23 ∧ lo = 0x80 ∧ hi = 0x9F)) ∧
      lo ≤ b ∧ b ≤ hi := by
    rcases first_cases a with h | h | h | h | h | h | h | h | h
    · omega
    · omega
    · omega
    · exact ⟨_, 0xA0, 0xBF, h.2, by simp, by omega, by omega⟩
    · exact ⟨_, 0x80, 0xBF, h.2, by simp, by omega, by omega⟩
    · exact ⟨_, 0x80, 0x9F, h.2, by simp, by omega, by omega⟩
    · omega
    · omega
    · omega
  obtain ⟨x, lo, hi, hx, hcls, hlo, hhi⟩ := hf
  rw [decode_len3 a _ x lo hi hx hcls]
  simp only [List.length_cons, List.getD_cons_zero, List.getD_cons_succ]
  rw [if_neg (by omega), if_neg (by omega), if_neg (by omega)]

theorem decode_seq4 (a b c d : Nat) (t : GoString) (h : Seq4 a b c d) :
    DecodeRuneInString (a :: b :: c :: d :: t) = (val4 a b c d, 4) := by
  obtain ⟨h1, ⟨h2, h3⟩, h4, h5⟩ := h
  unfold IsCont at h1
  have hf : ∃ x lo hi, first a = x ∧ ((x = 0x04 ∧ lo = 0x80 ∧ hi = 0xBF) ∨
      (x = 0x34 ∧ lo = 0x90 ∧ hi = 0xBF) ∨ (x = 0x44 ∧ lo = 0x80 ∧ hi = 0x8F)) ∧
      lo ≤ b ∧ b ≤ hi := by
    rcases first_cases a with h | h | h | h | h | h | h | h | h
    · omega
    · omega
    · omega
    · omega
    · omega
    · omega
    · exact ⟨_, 0x90, 0xBF, h.2, by simp, by omega, by omega⟩
    · exact ⟨_, 0x80, 0xBF, h.2.2, by simp, by omega, by omega⟩
    · exact ⟨_, 0x80, 0x8F, h.2, by simp, by omega, by omega⟩
  obtain ⟨x, lo, hi, hx, hcls, hlo, hhi⟩ := hf
  rw [decode_len4 a _ x lo hi hx hcls]
  simp only [List.length_cons, List.getD_cons_zero, List.getD_cons_succ]
  rw [if_neg (by omega), if_neg (by omega), if_neg (by omega), if_neg (by omega)]

theorem decode_view_len2 (a : Nat) (t : GoString) (h1 : 0xC2 ≤ a) (h2 : a < 0xE0)
    (hf : first a = 0x02) : DecodeView (a :: t) (DecodeRuneInString (a :: t)) := by
  rcases t with _ | ⟨b, t⟩
  · rw [decode_len2 a _ hf, if_pos (by simp)]
    exact DecodeView.bad a _ (by omega)
  · by_cases hb : IsCont b
    · rw [decode_seq2 a b t ⟨h1, by omega, hb⟩]
      exact DecodeView.two a b t ⟨h1, by omega, hb⟩
    · rw [decode_len2 a _ hf]
      simp only [List.length_cons, List.getD_cons_zero]
      unfold IsCont at hb
      rw [if_neg (by omega), if_pos (by omega)]
      exact DecodeView.bad a _ (by omega)

theorem decode_view_len3 (a : Nat) (t : GoString) (x lo hi : Nat) (ha : 0x80 ≤ a)
    (hf : first a = x)
    (hx : (x = 0x03 ∧ lo = 0x80 ∧ hi = 0xBF) ∨ (x = 0x13 ∧ lo = 0xA0 ∧ hi = 0xBF) ∨
      (x = 0x23 ∧ lo = 0x80 ∧ hi = 0x9F))
    (hseq : ∀ b c, lo ≤ b → b ≤ hi → IsCont c → Seq3 a b c) :
    DecodeView (a :: t) (DecodeRuneInString (a :: t)) := by
  rcases t with _ | ⟨b, _ | ⟨c, t⟩⟩
  · rw [decode_len3 a _ x lo hi hf hx, if_pos (by simp)]
    exact DecodeView.bad a _ ha
  · rw [decode_len3 a _ x lo hi hf hx, if_pos (by simp)]
    exact DecodeView.bad a _ ha
  · by_cases hb : lo ≤ b ∧ b ≤ hi
    · by_cases hc : IsCont c
      · rw [decode_seq3 a b c t (hseq b c hb.1 hb.2 hc)]
        exact DecodeView.three a b c t (hseq b c hb.1 hb.2 hc)
      · rw [decode_len3 a _ x lo hi hf hx]
        simp only [List.length_cons, List.getD_cons_zero, List.getD_cons_succ]
        unfold IsCont at hc
        rw [if_neg (by omega), if_neg (by omega), if_pos (by omega)]
        exact DecodeView.bad a _ ha
    · rw [decode_len3 a _ x lo hi hf hx]
      simp only [List.length_cons, List.getD_cons_zero, List.getD_cons_succ]
      rw [if_neg (by omega), if_pos (by omega)]
      exact DecodeView.bad a _ ha

theorem decode_view_len4 (a : Nat) (t : GoString) (x lo hi : Nat) (ha : 0x80 ≤ a)
    (hf : first a = x)
    (hx : (x = 0x04 ∧ lo = 0x80 ∧ hi = 0xBF) ∨ (x = 0x34 ∧ lo = 0x90 ∧ hi = 0xBF) ∨
      (x = 0x44 ∧ lo = 0x80 ∧ hi = 0x8F))
    (hseq : ∀ b c d, lo ≤ b → b ≤ hi → IsCont c → IsCont d → Seq4 a b c d) :
    DecodeView (a :: t) (DecodeRuneInString (a :: t)) := by
  rcases t with _ | ⟨b, _ | ⟨c, _ | ⟨d, t⟩⟩⟩
  · rw [decode_len4 a _ x lo hi hf hx, if_pos (by simp)]
    exact DecodeView.bad a _ ha
  · rw [decode_len4 a _ x lo hi hf hx, if_pos (by simp)]
    exact DecodeView.bad a _ ha
  · rw [decode_len4 a _ x lo hi hf hx, if_pos (by simp)]
    exact DecodeView.bad a _ ha
  · by_cases hb : lo ≤ b ∧ b ≤ hi
    · by_cases hc : IsCont c
      · by_cases hd : IsCont d
        · rw [decode_seq4 a b c d t (hseq b c d hb.1 hb.2 hc hd)]
          exact DecodeView.four a b c d t (hseq b c d hb.1 hb.2 hc hd)
        · rw [decode_len4 a _ x lo hi hf hx]
          simp only [List.length_cons, List.getD_cons_zero, List.getD_cons_succ]
          unfold IsCont at hc hd
          rw [if_neg (by omega), if_neg (by omega), if_neg (by omega), if_pos (by omega)]
          exact DecodeView.bad a _ ha
      · rw [decode_len4 a _ x lo hi hf hx]
        simp only [List.length_cons, List.getD_cons_zero, List.getD_cons_succ]
        unfold IsCont at hc
        rw [if_neg (by omega), if_neg (by omega), if_pos (by omega)]
        exact DecodeView.bad a _ ha
    · rw [decode_len4 a _ x lo hi hf hx]
      simp only [List.length_cons, List.getD_cons_zero, List.getD_cons_succ]
      rw [if_neg (by omega), if_pos (by omega)]
      exact DecodeView.bad a _ ha

/-- Every decoding of a non-empty string is one of the five outcomes. -/
theorem decode_view (a : Nat) (t : GoString) :
    DecodeView (a :: t) (DecodeRuneInString (a :: t)) := by
  rcases first_cases a with h | h | h | h | h | h | h | h | h
  · rw [decode_ascii a t h.1]
    exact DecodeView.ascii a t h.1
  · rw [decode_xx a t h.2]
    exact DecodeView.bad a t (by omega)
  · exact decode_view_len2 a t h.1 h.2.1 h.2.2
  · exact decode_view_len3 a t _ 0xA0 0xBF (by omega) h.2 (by simp)
      (fun b c h1 h2 h3 => ⟨Or.inl ⟨h.1, h1, h2⟩, h3⟩)
  · exact decode_view_len3 a t _ 0x80 0xBF (by omega) h.2 (by simp)
      (fun b c h1 h2 h3 => by
        refine ⟨?_, h3⟩
        unfold IsCont
        omega)
  · exact decode_view_len3 a t _ 0x80 0x9F (by omega) h.2 (by simp)
      (fun b c h1 h2 h3 => ⟨Or.inr (Or.inr (Or.inl ⟨h.1, h1, h2⟩)), h3⟩)
  · exact decode_view_len4 a t _ 0x90 0xBF (by omega) h.2 (by simp)
      (fun b c d h1 h2 h3 h4 => ⟨Or.inl ⟨h.1, h1, h2⟩, h3, h4⟩)
  · exact decode_view_len4 a t _ 0x80 0xBF (by omega) h.2.2 (by simp)
      (fun b c d h1 h2 h3 h4 => ⟨Or.inr (Or.inl ⟨h.1, by omega, h1, h2⟩), h3, h4⟩)
  · exact decode_view_len4 a t _ 0x80 0x8F (by omega) h.2 (by simp)
      (fun b c d h1 h2 h3 h4 => ⟨Or.inr (Or.inr ⟨h.1, h1, h2⟩), h3, h4⟩)

/-- The five outcomes of decoding a non-empty string, as a disjunction. -/
theorem decode_cases (s : GoString) (hs : s ≠ []) :
    (∃ a t, s = a :: t ∧ a < 0x80 ∧ DecodeRuneInString s = ((a : Int), 1)) ∨
    (∃ a b t, s = a :: b :: t ∧ Seq2 a b ∧ DecodeRuneInString s = (val2 a b, 2)) ∨
    (∃ a b c t, s = a :: b :: c :: t ∧ Seq3 a b c ∧
      DecodeRuneInString s = (val3 a b c, 3)) ∨
    (∃ a b c d t, s = a :: b :: c :: d :: t ∧ Seq4 a b c d ∧
      DecodeRuneInString s = (val4 a b c d, 4)) ∨
    (∃ a t, s = a :: t ∧ 0x80 ≤ a ∧ DecodeRuneInString s = (RuneError, 1)) := by
  rcases s with _ | ⟨a, t⟩
  · exact absurd rfl hs
  · have hv := decode_view a t
    generalize hd : DecodeRuneInString (a :: t) = d at hv
    generalize hl : a :: t = l at hv
    cases hv with
    | ascii a' t' h => exact Or.inl ⟨a', t', rfl, h, rfl⟩
    | two a' b t' h => exact Or.inr (Or.inl ⟨a', b, t', rfl, h, rfl⟩)
    | three a' b c t' h => exact Or.inr (Or.inr (Or.inl ⟨a', b, c, t', rfl, h, rfl⟩))
    | four a' b c d t' h =>
      exact Or.inr (Or.inr (Or.inr (Or.inl ⟨a', b, c, d, t', rfl, h, rfl⟩)))
    | bad a' t' h => exact Or.inr (Or.inr (Or.inr (Or.inr ⟨a', t', rfl, h, rfl⟩)))

theorem decode_width_pos (s : GoString) (hs : s ≠ []) : 1 ≤ (DecodeRuneInString s).2 := by
  rcases decode_cases s hs with ⟨a, t, _, _, h⟩ | ⟨a, b, t, _, _, h⟩ | ⟨a, b, c, t, _, _, h⟩ |
    ⟨a, b, c, d, t, _, _, h⟩ | ⟨a, t, _, _, h⟩ <;> rw [h] <;> simp

theorem decode_width_le (s : GoString) : (DecodeRuneInString s).2 ≤ s.length := by
  by_cases hs : s = []
  · subst hs; simp [decode_nil]
  rcases decode_cases s hs with ⟨a, t, rfl, _, h⟩ | ⟨a, b, t, rfl, _, h⟩ |
    ⟨a, b, c, t, rfl, _, h⟩ | ⟨a, b, c, d, t, rfl, _, h⟩ | ⟨a, t, rfl, _, h⟩ <;>
    rw [h] <;> simp

theorem decode_width_le_four (s : GoString) : (DecodeRuneInString s).2 ≤ 4 := by
  by_cases hs : s = []
  · subst hs; simp [decode_nil]
  rcases decode_cases s hs with ⟨a, t, rfl, _, h⟩ | ⟨a, b, t, rfl, _, h⟩ |
    ⟨a, b, c, t, rfl, _, h⟩ | ⟨a, b, c, d, t, rfl, _, h⟩ | ⟨a, t, rfl, _, h⟩ <;>
    simp [h]

/-- A decoding that stays inside a prefix `q` is the decoding of `q`. -/
theorem decode_append (q t : GoString) (hq : q ≠ [])
    (h : (DecodeRuneInString (q ++ t)).2 ≤ q.length) :
    DecodeRuneInString (q ++ t) = DecodeRuneInString q := by
  have hqt : q ++ t ≠ [] := by simp [hq]
  rcases decode_cases (q ++ t) hqt with ⟨a, u, hs, ha, hd⟩ | ⟨a, b, u, hs, hseq, hd⟩ |
    ⟨a, b, c, u, hs, hseq, hd⟩ | ⟨a, b, c, d, u, hs, hseq, hd⟩ | ⟨a, u, hs, ha, hd⟩
  · rcases q with _ | ⟨a', q⟩
    · exact absurd rfl hq
    · simp only [List.cons_append, List.cons.injEq] at hs
      obtain ⟨rfl, _⟩ := hs
      rw [hd, decode_ascii _ _ ha]
  · rw [hd] at h
    rcases q with _ | ⟨a', _ | ⟨b', q⟩⟩
    · exact absurd rfl hq
    · simp at h
    · simp only [List.cons_append, List.cons.injEq] at hs
      obtain ⟨rfl, rfl, _⟩ := hs
      rw [hd, decode_seq2 _ _ _ hseq]
  · rw [hd] at h
    rcases q with _ | ⟨a', _ | ⟨b', _ | ⟨c', q⟩⟩⟩
    · exact absurd rfl hq
    · simp at h
    · simp at h
    · simp only [List.cons_append, List.cons.injEq] at hs
      obtain ⟨rfl, rfl, rfl, _⟩ := hs
      rw [hd, decode_seq3 _ _ _ _ hseq]
  · rw [hd] at h
    rcases q with _ | ⟨a', _ | ⟨b', _ | ⟨c', _ | ⟨d', q⟩⟩⟩⟩
    · exact absurd rfl hq
    · simp at h
    · simp at h
    · simp at h
    · simp only [List.cons_append, List.cons.injEq] at hs
      obtain ⟨rfl, rfl, rfl, rfl, _⟩ := hs
      rw [hd, decode_seq4 _ _ _ _ _ hseq]
  · rw [hd]
    rcases decode_cases q hq with ⟨a', u', rfl, ha', hd'⟩ | ⟨a', b', u', rfl, hseq', hd'⟩ |
      ⟨a', b', c', u', rfl, hseq', hd'⟩ | ⟨a', b', c', d', u', rfl, hseq', hd'⟩ |
      ⟨a', u', rfl, ha', hd'⟩
    · simp only [List.cons_append, List.cons.injEq] at hs
      omega
    · rw [List.cons_append, List.cons_append, decode_seq2 _ _ _ hseq'] at hd
      simp at hd
    · rw [List.cons_append, List.cons_append, List.cons_append,
        decode_seq3 _ _ _ _ hseq'] at hd
      simp at hd
    · rw [List.cons_append, List.cons_append, List.cons_append, List.cons_append,
        decode_seq4 _ _ _ _ _ hseq'] at hd
      simp at hd
    · rw [hd']

/-- Decoding looks only at the bytes of the rune it returns. -/
theorem decode_take (s : GoString) :
    DecodeRuneInString (s.take (DecodeRuneInString s).2) = DecodeRuneInString s := by
  by_cases hs : s = []
  · subst hs; rfl
  have hw := decode_width_pos s hs
  have hl := decode_width_le s
  have h1 : s.take (DecodeRuneInString s).2 ≠ [] := by
    intro h0
    have := congrArg List.length h0
    rw [List.length_take, List.length_nil] at this
    omega
  have h2 := decode_append (s.take (DecodeRuneInString s).2) (s.drop (DecodeRuneInString s).2) h1
  rw [List.take_append_drop] at h2
  exact (h2 (by rw [List.length_take]; omega)).symm

/-- A string that starts with a continuation byte decodes to `RuneError`, width 1. -/
theorem decode_cont_head (b : Nat) (t : GoString) (hb : IsCont b) :
    DecodeRuneInString (b :: t) = (RuneError, 1) := by
  unfold IsCont at hb
  rcases decode_cases (b :: t) (by simp) with ⟨a, u, hs, ha, hd⟩ | ⟨a, b', u, hs, hseq, hd⟩ |
    ⟨a, b', c, u, hs, hseq, hd⟩ | ⟨a, b', c, d, u, hs, hseq, hd⟩ | ⟨a, u, hs, ha, hd⟩
  · simp only [List.cons.injEq] at hs; omega
  · simp only [List.cons.injEq] at hs; unfold Seq2 at hseq; omega
  · simp only [List.cons.injEq] at hs; unfold Seq3 at hseq; omega
  · simp only [List.cons.injEq] at hs; unfold Seq4 at hseq; omega
  · exact hd

/-- A rune of width two or more starts with a lead byte and goes on with
continuation bytes. -/
theorem decode_multi (s : GoString) (h : 2 ≤ (DecodeRuneInString s).2) :
    ∃ a u t, s = a :: (u ++ t) ∧ 0xC2 ≤ a ∧ u.length + 1 = (DecodeRuneInString s).2 ∧
      u ≠ [] ∧ ∀ b ∈ u, IsCont b := by
  by_cases hs : s = []
  · subst hs; simp [decode_nil] at h
  rcases decode_cases s hs with ⟨a, t, rfl, _, hd⟩ | ⟨a, b, t, rfl, hseq, hd⟩ |
    ⟨a, b, c, t, rfl, hseq, hd⟩ | ⟨a, b, c, d, t, rfl, hseq, hd⟩ | ⟨a, t, rfl, _, hd⟩
  · rw [hd] at h; simp at h
  · refine ⟨a, [b], t, rfl, hseq.1, by rw [hd]; rfl, by simp, ?_⟩
    intro x hx
    simp at hx; subst hx; exact hseq.2.2
  · refine ⟨a, [b, c], t, rfl, ?_, by rw [hd]; rfl, by simp, ?_⟩
    · unfold Seq3 at hseq; omega
    · intro x hx
      simp at hx
      unfold Seq3 at hseq
      unfold IsCont at *
      omega
  · refine ⟨a, [b, c, d], t, rfl, ?_, by rw [hd]; rfl, by simp, ?_⟩
    · unfold Seq4 at hseq; omega
    · intro x hx
      simp at hx
      unfold Seq4 at hseq
      unfold IsCont at *
      omega
  · rw [hd] at h; simp at h

/-! ## The `range` loop over a string -/

theorem rangeRunesAux_fuel (n : Nat) : ∀ (m : Nat) (s : GoString),
    s.length ≤ n → s.length ≤ m → rangeRunesAux n s = rangeRunesAux m s := by
  induction n with
  | zero =>
    intro m s hn _
    have hs : s = [] := List.eq_nil_of_length_eq_zero (by omega)
    subst hs
    cases m <;> rfl
  | succ n ih =>
    intro m s hn hm
    rcases s with _ | ⟨a, t⟩
    · cases m <;> rfl
    · rcases m with _ | m
      · simp at hm
      · have hw := decode_width_pos (a :: t) (by simp)
        simp only [rangeRunesAux]
        congr 1
        apply ih
        · simp only [List.length_drop, List.length_cons] at hn ⊢; omega
        · simp only [List.length_drop, List.length_cons] at hm ⊢; omega

theorem rangeRunes_nil : rangeRunes [] = [] := rfl

theorem rangeRunes_cons (s : GoString) (hs : s ≠ []) :
    rangeRunes s =
      (DecodeRuneInString s).1 :: rangeRunes (s.drop (DecodeRuneInString s).2) := by
  rcases s with _ | ⟨a, t⟩
  · exact absurd rfl hs
  · have hw := decode_width_pos (a :: t) (by simp)
    unfold rangeRunes
    simp only [List.length_cons, rangeRunesAux]
    congr 1
    apply rangeRunesAux_fuel
    · simp only [List.length_drop, List.length_cons]; omega
    · exact le_refl _

/-- A string that is exactly one decoding unit yields one rune. -/
theorem rangeRunes_unit (v : GoString) (hv : v ≠ [])
    (h : (DecodeRuneInString v).2 = v.length) :
    rangeRunes v = [(DecodeRuneInString v).1] := by
  rw [rangeRunes_cons v hv, h, List.drop_length, rangeRunes_nil]

/-- Splitting a string in two either splits its runes, or cuts through a rune: then
the cut rune is a complete decoding unit `q2 ++ t1`. -/
theorem rangeRunes_append_cases (n : Nat) : ∀ (q t : GoString), q.length ≤ n →
    rangeRunes (q ++ t) = rangeRunes q ++ rangeRunes t ∨
    ∃ q1 q2 t1 t2, q = q1 ++ q2 ∧ t = t1 ++ t2 ∧ q2 ≠ [] ∧ t1 ≠ [] ∧
      (DecodeRuneInString (q2 ++ t1)).2 = (q2 ++ t1).length := by
  induction n with
  | zero =>
    intro q t hn
    have hq : q = [] := List.eq_nil_of_length_eq_zero (by omega)
    subst hq
    left
    simp [rangeRunes_nil]
  | succ n ih =>
    intro q t hn
    by_cases hq : q = []
    · subst hq; left; simp [rangeRunes_nil]
    have hqt : q ++ t ≠ [] := by simp [hq]
    have hpos := decode_width_pos (q ++ t) hqt
    by_cases hw : (DecodeRuneInString (q ++ t)).2 ≤ q.length
    · have hd := decode_append q t hq hw
      have hlen : (q.drop (DecodeRuneInString q).2).length ≤ n := by
        rw [List.length_drop, ← hd]
        have : 0 < q.length := List.length_pos.2 hq
        omega
      have hdrop : (q ++ t).drop (DecodeRuneInString (q ++ t)).2 =
          q.drop (DecodeRuneInString q).2 ++ t := by
        rw [hd, List.drop_append_of_le_length (by rw [← hd]; exact hw)]
      rw [rangeRunes_cons (q ++ t) hqt, rangeRunes_cons q hq, hdrop, hd]
      rcases ih (q.drop (DecodeRuneInString q).2) t hlen with h | ⟨q1, q2, t1, t2, h1, h2, h3⟩
      · left
        rw [h, List.cons_append]
      · right
        refine ⟨q.take (DecodeRuneInString q).2 ++ q1, q2, t1, t2, ?_, h2, h3⟩
        rw [List.append_assoc, ← h1, List.take_append_drop]
    · right
      have hle := decode_width_le (q ++ t)
      rw [List.length_append] at hle
      refine ⟨[], q, t.take ((DecodeRuneInString (q ++ t)).2 - q.length),
        t.drop ((DecodeRuneInString (q ++ t)).2 - q.length), rfl,
        (List.take_append_drop _ _).symm, hq, ?_, ?_⟩
      · intro h0
        have := congrArg List.length h0
        rw [List.length_take, List.length_nil] at this
        omega
      · have htake : q ++ t.take ((DecodeRuneInString (q ++ t)).2 - q.length) =
            (q ++ t).take (DecodeRuneInString (q ++ t)).2 := by
          have hq' : q.take (DecodeRuneInString (q ++ t)).2 = q :=
            List.take_of_length_le (by omega)
          rw [List.take_append_eq_append_take, hq']
        rw [htake, decode_take, List.length_take, List.length_append]
        omega

/-- A string whose first byte is not a continuation byte starts a new rune wherever
it is appended. -/
theorem rangeRunes_append (q : GoString) (x : Nat) (t : GoString) (hx : ¬ IsCont x) :
    rangeRunes (q ++ x :: t) = rangeRunes q ++ rangeRunes (x :: t) := by
  rcases rangeRunes_append_cases q.length q (x :: t) (le_refl _) with
    h | ⟨q1, q2, t1, t2, h1, h2, h3, h4, h5⟩
  · exact h
  · exfalso
    rcases q2 with _ | ⟨a', q2⟩
    · exact h3 rfl
    rcases t1 with _ | ⟨y, t1⟩
    · exact h4 rfl
    simp only [List.cons_append, List.cons.injEq] at h2
    obtain ⟨rfl, _⟩ := h2
    have h2le : 2 ≤ (DecodeRuneInString (a' :: q2 ++ x :: t1)).2 := by
      rw [h5]; simp only [List.cons_append, List.length_cons, List.length_append]; omega
    obtain ⟨a, u, t', he, _, hlen, _, hall⟩ := decode_multi _ h2le
    rw [h5] at hlen
    simp only [List.cons_append, List.cons.injEq] at he
    obtain ⟨_, he⟩ := he
    have hl := congrArg List.length he
    simp only [List.cons_append, List.length_cons, List.length_append] at hlen hl
    have ht' : t' = [] := List.eq_nil_of_length_eq_zero (by omega)
    subst ht'
    rw [List.append_nil] at he
    exact hx (hall x (by rw [← he]; simp))

theorem rangeRunes_append_nil_or (q t : GoString) (ht : ∀ x u, t = x :: u → ¬ IsCont x) :
    rangeRunes (q ++ t) = rangeRunes q ++ rangeRunes t := by
  rcases t with _ | ⟨x, u⟩
  · simp [rangeRunes_nil]
  · exact rangeRunes_append q x u (ht x u rfl)

/-! ## Bit operations as arithmetic -/

theorem and_3F (a : Nat) : a &&& 0x3F = a % 64 := Nat.and_pow_two_sub_one_eq_mod a 6
theorem and_1F (a : Nat) : a &&& 0x1F = a % 32 := Nat.and_pow_two_sub_one_eq_mod a 5
theorem and_0F (a : Nat) : a &&& 0x0F = a % 16 := Nat.and_pow_two_sub_one_eq_mod a 4
theorem and_07 (a : Nat) : a &&& 0x07 = a % 8 := Nat.and_pow_two_sub_one_eq_mod a 3

theorem or_80 (x : Nat) (h : x < 64) : 0x80 ||| x = 128 + x := by
  have := Nat.mul_add_lt_is_or (i := 6) h 2
  simpa using this.symm

theorem or_C0 (x : Nat) (h : x < 32) : 0xC0 ||| x = 192 + x := by
  have := Nat.mul_add_lt_is_or (i := 5) h 6
  simpa using this.symm

theorem or_E0 (x : Nat) (h : x < 16) : 0xE0 ||| x = 224 + x := by
  have := Nat.mul_add_lt_is_or (i := 4) h 14
  simpa using this.symm

theorem or_F0 (x : Nat) (h : x < 8) : 0xF0 ||| x = 240 + x := by
  have := Nat.mul_add_lt_is_or (i := 3) h 30
  simpa using this.symm

theorem val2_eq (a b : Nat) : val2 a b = (((a % 32) * 64 + b % 64 : Nat) : Int) := by
  unfold val2
  rw [and_1F, and_3F, Nat.shiftLeft_eq]
  have h : b % 64 < 2 ^ 6 := by omega
  have := Nat.mul_add_lt_is_or h (a % 32)
  rw [Nat.mul_comm (a % 32) (2 ^ 6), ← this]

theorem val3_eq (a b c : Nat) :
    val3 a b c = (((a % 16) * 4096 + (b % 64) * 64 + c % 64 : Nat) : Int) := by
  unfold val3
  rw [and_0F, and_3F, and_3F, Nat.shiftLeft_eq, Nat.shiftLeft_eq]
  have h1 : b % 64 * 2 ^ 6 < 2 ^ 12 := by omega
  have h2 : c % 64 < 2 ^ 6 := by omega
  have e1 := Nat.mul_add_lt_is_or h1 (a % 16)
  have e2 := Nat.mul_add_lt_is_or h2 (a % 16 * 64 + b % 64)
  rw [Nat.mul_comm (a % 16) (2 ^ 12), ← e1]
  have e3 : 2 ^ 12 * (a % 16) + b % 64 * 2 ^ 6 = 2 ^ 6 * (a % 16 * 64 + b % 64) := by omega
  rw [e3, ← e2]
  congr 1
  omega

theorem val4_eq (a b c d : Nat) :
    val4 a b c d =
      (((a % 8) * 262144 + (b % 64) * 4096 + (c % 64) * 64 + d % 64 : Nat) : Int) := by
  unfold val4
  rw [and_07, and_3F, and_3F, and_3F, Nat.shiftLeft_eq, Nat.shiftLeft_eq, Nat.shiftLeft_eq]
  have h1 : b % 64 * 2 ^ 12 < 2 ^ 18 := by omega
  have h2 : c % 64 * 2 ^ 6 < 2 ^ 12 := by omega
  have h3 : d % 64 < 2 ^ 6 := by omega
  have e1 := Nat.mul_add_lt_is_or h1 (a % 8)
  have e2 := Nat.mul_add_lt_is_or h2 (a % 8 * 64 + b % 64)
  have e3 := Nat.mul_add_lt_is_or h3 (a % 8 * 4096 + b % 64 * 64 + c % 64)
  rw [Nat.mul_comm (a % 8) (2 ^ 18), ← e1]
  have e4 : 2 ^ 18 * (a % 8) + b % 64 * 2 ^ 12 = 2 ^ 12 * (a % 8 * 64 + b % 64) := by omega
  rw [e4, ← e2]
  have e5 : 2 ^ 12 * (a % 8 * 64 + b % 64) + c % 64 * 2 ^ 6 =
      2 ^ 6 * (a % 8 * 4096 + b % 64 * 64 + c % 64) := by omega
  rw [e5, ← e3]
  congr 1
  omega

/-! ## Encoding -/

theorem shr6 (n : Nat) : n >>> 6 = n / 64 := by
  rw [Nat.shiftRight_eq_div_pow]

theorem shr12 (n : Nat) : n >>> 12 = n / 4096 := by
  rw [Nat.shiftRight_eq_div_pow]

theorem shr18 (n : Nat) : n >>> 18 = n / 262144 := by
  rw [Nat.shiftRight_eq_div_pow]

/-- A continuation byte `tx | byte(x)&maskx`. -/
theorem cont_byte (x : Nat) : 0x80 ||| (x % 256 &&& 0x3F) = 128 + x % 64 := by
  rw [and_3F, or_80 (x % 256 % 64) (by omega)]
  omega

theorem encode_ascii (r : Int) (h0 : 0 ≤ r) (h1 : r ≤ 0x7F) : EncodeRune r = [r.toNat] := by
  unfold EncodeRune
  rw [if_pos ⟨h0, h1⟩]

theorem encode_two (r : Int) (h0 : 0x80 ≤ r) (h1 : r ≤ 0x7FF) :
    EncodeRune r = [192 + r.toNat / 64, 128 + r.toNat % 64] := by
  unfold EncodeRune
  rw [if_neg (by omega), if_pos (by omega)]
  simp only [shr6, cont_byte]
  rw [or_C0 (r.toNat / 64 % 256) (by omega)]
  congr 2
  omega

theorem encode3_eq (n : Nat) (h : n ≤ 0xFFFF) :
    encode3 n = [224 + n / 4096, 128 + n / 64 % 64, 128 + n % 64] := by
  unfold encode3
  simp only [shr6, shr12, cont_byte]
  rw [or_E0 (n / 4096 % 256) (by omega)]
  congr 2
  omega

theorem encode_three (r : Int) (h0 : 0x800 ≤ r) (h1 : r ≤ 0xFFFF)
    (h2 : ¬ (0xD800 ≤ r ∧ r ≤ 0xDFFF)) :
    EncodeRune r = [224 + r.toNat / 4096, 128 + r.toNat / 64 % 64, 128 + r.toNat % 64] := by
  unfold EncodeRune
  rw [if_neg (by omega), if_neg (by omega), if_neg (by omega), if_pos (by omega)]
  exact encode3_eq _ (by omega)

theorem encode_invalid (r : Int) (h : ¬ ValidRune r) : EncodeRune r = [0xEF, 0xBF, 0xBD] := by
  unfold ValidRune at h
  unfold EncodeRune
  rw [if_neg (by omega), if_neg (by omega), if_pos (by omega)]
  rfl

theorem encode_four (r : Int) (h0 : 0x10000 ≤ r) (h1 : r ≤ 0x10FFFF) :
    EncodeRune r = [240 + r.toNat / 262144, 128 + r.toNat / 4096 % 64,
      128 + r.toNat / 64 % 64, 128 + r.toNat % 64] := by
  unfold EncodeRune
  rw [if_neg (by omega), if_neg (by omega), if_neg (by omega), if_neg (by omega)]
  simp only [shr6, shr12, shr18, cont_byte]
  rw [or_F0 (r.toNat / 262144 % 256) (by omega)]
  congr 2
  omega

/-! ## Decoding an encoding -/

/-- The shape of the encoding of a scalar value. -/
theorem encode_cases (r : Int) (h : ValidRune r) :
    (r ≤ 0x7F ∧ EncodeRune r = [r.toNat]) ∨
    (0x80 ≤ r ∧ r ≤ 0x7FF ∧ EncodeRune r = [192 + r.toNat / 64, 128 + r.toNat % 64]) ∨
    (0x800 ≤ r ∧ r ≤ 0xFFFF ∧
      EncodeRune r = [224 + r.toNat / 4096, 128 + r.toNat / 64 % 64, 128 + r.toNat % 64]) ∨
    (0x10000 ≤ r ∧ EncodeRune r = [240 + r.toNat / 262144, 128 + r.toNat / 4096 % 64,
      128 + r.toNat / 64 % 64, 128 + r.toNat % 64]) := by
  obtain ⟨h0, h1, h2⟩ := h
  by_cases c1 : r ≤ 0x7F
  · exact Or.inl ⟨c1, encode_ascii r h0 c1⟩
  by_cases c2 : r ≤ 0x7FF
  · exact Or.inr (Or.inl ⟨by omega, c2, encode_two r (by omega) c2⟩)
  by_cases c3 : r ≤ 0xFFFF
  · exact Or.inr (Or.inr (Or.inl ⟨by omega, c3, encode_three r (by omega) c3 h2⟩))
  · exact Or.inr (Or.inr (Or.inr ⟨by omega, encode_four r (by omega) h1⟩))

/-- Decoding the encoding of a scalar value gives it back, with its width. -/
theorem decode_encode (r : Int) (h : ValidRune r) (t : GoString) :
    DecodeRuneInString (EncodeRune r ++ t) = (r, (EncodeRune r).length) := by
  have hv := h
  obtain ⟨h0, h1, h2⟩ := h
  rcases encode_cases r hv with ⟨c, e⟩ | ⟨c1, c2, e⟩ | ⟨c1, c2, e⟩ | ⟨c1, e⟩
  · rw [e, List.singleton_append, decode_ascii _ _ (by omega)]
    simp only [List.length_singleton, Prod.mk.injEq, and_true]
    omega
  · rw [e]
    simp only [List.cons_append, List.nil_append, List.length_cons, List.length_nil]
    rw [decode_seq2 _ _ _ (by unfold Seq2 IsCont; omega), val2_eq]
    simp only [Prod.mk.injEq, and_true]
    omega
  · rw [e]
    simp only [List.cons_append, List.nil_append, List.length_cons, List.length_nil]
    rw [decode_seq3 _ _ _ _ (by unfold Seq3 IsCont; omega), val3_eq]
    simp only [Prod.mk.injEq, and_true]
    omega
  · rw [e]
    simp only [List.cons_append, List.nil_append, List.length_cons, List.length_nil]
    rw [decode_seq4 _ _ _ _ _ (by unfold Seq4 IsCont; omega), val4_eq]
    simp only [Prod.mk.injEq, and_true]
    omega

/-- An encoding is never empty and never starts with a continuation byte. -/
theorem encode_head (r : Int) : ∃ a u, EncodeRune r = a :: u ∧ ¬ IsCont a ∧ u.length ≤ 3 := by
  by_cases h : ValidRune r
  · rcases encode_cases r h with ⟨c, e⟩ | ⟨c1, c2, e⟩ | ⟨c1, c2, e⟩ | ⟨c1, e⟩
    · exact ⟨_, _, e, by unfold IsCont; unfold ValidRune at h; omega, by simp⟩
    · exact ⟨_, _, e, by unfold IsCont; omega, by simp⟩
    · exact ⟨_, _, e, by unfold IsCont; omega, by simp⟩
    · exact ⟨_, _, e, by unfold IsCont; omega, by simp⟩
  · exact ⟨_, _, encode_invalid r h, by unfold IsCont; omega, by simp⟩

/-- The runes `DecodeRuneInString` returns are scalar values. -/
theorem decode_valid (s : GoString) : ValidRune (DecodeRuneInString s).1 := by
  by_cases hs : s = []
  · subst hs; rw [decode_nil]; unfold ValidRune RuneError; simp
  rcases decode_cases s hs with ⟨a, t, rfl, h, hd⟩ | ⟨a, b, t, rfl, h, hd⟩ |
    ⟨a, b, c, t, rfl, h, hd⟩ | ⟨a, b, c, d, t, rfl, h, hd⟩ | ⟨a, t, rfl, h, hd⟩
  · rw [hd]; unfold ValidRune; simp only; omega
  · rw [hd, val2_eq]; unfold Seq2 IsCont at h; unfold ValidRune; simp only; omega
  · rw [hd, val3_eq]; unfold Seq3 IsCont at h; unfold ValidRune; simp only; omega
  · rw [hd, val4_eq]; unfold Seq4 IsCont at h; unfold ValidRune; simp only; omega
  · rw [hd]; unfold ValidRune RuneError; simp

theorem rangeRunes_valid (n : Nat) : ∀ s : GoString, s.length ≤ n →
    ∀ r ∈ rangeRunes s, ValidRune r := by
  induction n with
  | zero =>
    intro s hn r hr
    have hs : s = [] := List.eq_nil_of_length_eq_zero (by omega)
    subst hs
    simp [rangeRunes_nil] at hr
  | succ n ih =>
    intro s hn r hr
    by_cases hs : s = []
    · subst hs; simp [rangeRunes_nil] at hr
    rw [rangeRunes_cons s hs] at hr
    rcases List.mem_cons.1 hr with h | h
    · rw [h]; exact decode_valid s
    · have hw := decode_width_pos s hs
      have : 0 < s.length := List.length_pos.2 hs
      exact ih _ (by rw [List.length_drop]; omega) r h

/-- A `range` loop over the concatenated encodings of scalar values yields them. -/
theorem rangeRunes_encode_append (rs : List Int) (h : ∀ r ∈ rs, ValidRune r)
    (t : GoString) : rangeRunes (encodeRunes rs ++ t) = rs ++ rangeRunes t := by
  induction rs with
  | nil => simp [encodeRunes]
  | cons r rs ih =>
    have hr := h r (by simp)
    obtain ⟨a, u, he, _, _⟩ := encode_head r
    have hne : encodeRunes (r :: rs) ++ t ≠ [] := by
      simp [encodeRunes, he]
    rw [rangeRunes_cons _ hne]
    simp only [encodeRunes, List.append_assoc]
    rw [decode_encode r hr]
    simp only [List.drop_left, List.cons_append]
    rw [ih (fun x hx => h x (by simp [hx]))]

theorem rangeRunes_encode (rs : List Int) (h : ∀ r ∈ rs, ValidRune r) :
    rangeRunes (encodeRunes rs) = rs := by
  have := rangeRunes_encode_append rs h []
  simpa [rangeRunes_nil] using this

theorem encodeRunes_append (xs ys : List Int) :
    encodeRunes (xs ++ ys) = encodeRunes xs ++ encodeRunes ys := by
  induction xs with
  | nil => rfl
  | cons x xs ih => simp [encodeRunes, ih]

/-! ## `utf8.DecodeLastRuneInString` -/

set_option maxRecDepth 100000 in
theorem runeStart_byte : ∀ b, b < 256 →
    RuneStart b = !(decide (0x80 ≤ b) && decide (b ≤ 0xBF)) := by
  decide

theorem runeStart_cont (b : Nat) (h : IsCont b) : RuneStart b = false := by
  unfold IsCont at h
  rw [runeStart_byte b (by omega)]
  simp [h.1, h.2]

theorem runeStart_lead (a : Nat) (h1 : 0xC2 ≤ a) (h2 : a < 256) : RuneStart a = true := by
  rw [runeStart_byte a h2]
  have : ¬ a ≤ 0xBF := by omega
  simp [this]

/-- The first byte of a rune of width two or more is a lead byte. -/
theorem decode_multi_lead (a : Nat) (t : GoString)
    (h : 2 ≤ (DecodeRuneInString (a :: t)).2) : 0xC2 ≤ a ∧ a ≤ 0xF4 := by
  rcases decode_cases (a :: t) (by simp) with ⟨a', u, hs, ha, hd⟩ | ⟨a', b, u, hs, hseq, hd⟩ |
    ⟨a', b, c, u, hs, hseq, hd⟩ | ⟨a', b, c, d, u, hs, hseq, hd⟩ | ⟨a', u, hs, ha, hd⟩
  · rw [hd] at h; simp at h
  · simp only [List.cons.injEq] at hs; unfold Seq2 at hseq; omega
  · simp only [List.cons.injEq] at hs; unfold Seq3 at hseq; omega
  · simp only [List.cons.injEq] at hs; unfold Seq4 at hseq; omega
  · rw [hd] at h; simp at h

/-- The backward scan stops at the lead byte of a trailing sequence. -/
theorem scanBack_lead (p : GoString) (a : Nat) (u : GoString) (lim : Nat)
    (ha : RuneStart a = true) (hu : ∀ b ∈ u, IsCont b) (hlim : lim ≤ p.length) :
    ∀ (j fuel : Nat), j ≤ u.length → j < fuel →
      scanBack (p ++ a :: u) lim fuel (p.length + 1 + j) = p.length := by
  intro j
  induction j with
  | zero =>
    intro fuel _ hf
    rcases fuel with _ | fuel
    · omega
    · have hget : (p ++ a :: u).getD (p.length + 1 + 0 - 1) 0 = a := by
        rw [List.getD_append_right _ _ _ _ (by omega)]
        have : p.length + 1 + 0 - 1 - p.length = 0 := by omega
        rw [this, List.getD_cons_zero]
      unfold scanBack
      rw [if_pos (by omega), hget, if_pos ha]
      omega
  | succ j ih =>
    intro fuel hj hf
    rcases fuel with _ | fuel
    · omega
    · have hget : (p ++ a :: u).getD (p.length + 1 + (j + 1) - 1) 0 = u.getD j 0 := by
        rw [List.getD_append_right _ _ _ _ (by omega)]
        have : p.length + 1 + (j + 1) - 1 - p.length = j + 1 := by omega
        rw [this, List.getD_cons_succ]
      have hc : IsCont (u.getD j 0) := by
        rw [List.getD_eq_getElem _ _ (by omega)]
        exact hu _ (List.getElem_mem _)
      unfold scanBack
      rw [if_pos (by omega), hget, runeStart_cont _ hc]
      simp only [Bool.false_eq_true, if_false]
      have : p.length + 1 + (j + 1) - 1 = p.length + 1 + j := by omega
      rw [this]
      exact ih fuel (by omega) (by omega)

/-- A string that ends with a complete rune of width two or more: the last rune is
that rune. -/
theorem decodeLast_unit (p v : GoString) (h2 : 2 ≤ v.length)
    (hv : (DecodeRuneInString v).2 = v.length) :
    DecodeLastRuneInString (p ++ v) = DecodeRuneInString v := by
  obtain ⟨a, u, t, he, _, hlen, hne, hall⟩ := decode_multi v (by omega)
  have ht : t = [] := by
    have := congrArg List.length he
    simp only [List.length_cons, List.length_append] at this
    exact List.eq_nil_of_length_eq_zero (by omega)
  subst ht
  rw [List.append_nil] at he
  subst he
  have hlead := decode_multi_lead a u (by omega)
  have h4 := decode_width_le_four (a :: u)
  simp only [List.length_cons] at hv h2 hlen h4
  have hu1 : 1 ≤ u.length := by omega
  have hlast : 0x80 ≤ (p ++ a :: u).getD ((p ++ a :: u).length - 1) 0 := by
    rw [List.getD_append_right _ _ _ _ (by simp only [List.length_append, List.length_cons]; omega)]
    have : (p ++ a :: u).length - 1 - p.length = (u.length - 1) + 1 := by
      simp only [List.length_append, List.length_cons]; omega
    rw [this, List.getD_cons_succ, List.getD_eq_getElem _ _ (by omega)]
    exact (hall _ (List.getElem_mem _)).1
  have hscan : scanBack (p ++ a :: u) ((p ++ a :: u).length - 4) (p ++ a :: u).length
      ((p ++ a :: u).length - 1) = p.length := by
    have e : (p ++ a :: u).length - 1 = p.length + 1 + (u.length - 1) := by
      simp only [List.length_append, List.length_cons]; omega
    rw [e]
    apply scanBack_lead p a u _ (runeStart_lead a hlead.1 (by omega)) hall
    · simp only [List.length_append, List.length_cons]; omega
    · omega
    · simp only [List.length_append, List.length_cons]; omega
  unfold DecodeLastRuneInString
  simp only
  rw [if_neg (by simp), if_neg (by omega), hscan, List.drop_left]
  rw [if_neg (by
    rw [hv]; simp only [List.length_append, List.length_cons]; omega)]

theorem scanBack_le (s : GoString) (lim : Nat) :
    ∀ (fuel k : Nat), scanBack s lim fuel k ≤ k - 1 := by
  intro fuel
  induction fuel with
  | zero => intro k; exact le_refl _
  | succ n ih =>
    intro k
    unfold scanBack
    split
    · split
      · exact le_refl _
      · have := ih (k - 1)
        omega
    · exact le_refl _

/-- The outcomes of `DecodeLastRuneInString` on a non-empty string. -/
theorem decodeLast_cases (s : GoString) (hs : s ≠ []) :
    (DecodeLastRuneInString s).2 = 1 ∨
    ∃ start, start < s.length ∧ start + (DecodeRuneInString (s.drop start)).2 = s.length ∧
      DecodeLastRuneInString s = DecodeRuneInString (s.drop start) := by
  have hl : s.length ≠ 0 := by
    intro h; exact hs (List.eq_nil_of_length_eq_zero h)
  unfold DecodeLastRuneInString
  simp only
  rw [if_neg hl]
  by_cases h1 : s.getD (s.length - 1) 0 < 0x80
  · rw [if_pos h1]; exact Or.inl rfl
  · rw [if_neg h1]
    by_cases h2 : scanBack s (s.length - 4) s.length (s.length - 1) +
        (DecodeRuneInString (s.drop (scanBack s (s.length - 4) s.length (s.length - 1)))).2 ≠
        s.length
    · rw [if_pos h2]; exact Or.inl rfl
    · rw [if_neg h2]
      have hsc := scanBack_le s (s.length - 4) s.length (s.length - 1)
      exact Or.inr ⟨_, by omega, not_not.1 h2, rfl⟩

theorem decodeLast_width_pos (s : GoString) (hs : s ≠ []) :
    1 ≤ (DecodeLastRuneInString s).2 := by
  rcases decodeLast_cases s hs with h | ⟨start, h0, h1, h2⟩
  · omega
  · rw [h2]
    have hd : s.drop start ≠ [] := by
      intro h0
      have := congrArg List.length h0
      rw [List.length_drop, List.length_nil] at this
      omega
    exact decode_width_pos _ hd

theorem decodeLast_width_le (s : GoString) : (DecodeLastRuneInString s).2 ≤ s.length := by
  by_cases hs : s = []
  · subst hs; simp [DecodeLastRuneInString]
  have : 0 < s.length := List.length_pos.2 hs
  rcases decodeLast_cases s hs with h | ⟨start, _, h1, h2⟩
  · omega
  · rw [h2]; omega

/-- Removing the last rune as `DecodeLastRuneInString` measures it removes exactly
the last rune a `range` loop yields, on every string, well formed or not. -/
theorem rangeRunes_dropLast (s : GoString) (hs : s ≠ []) :
    rangeRunes (s.take (s.length - (DecodeLastRuneInString s).2)) =
      (rangeRunes s).dropLast := by
  have hpos := decodeLast_width_pos s hs
  have hle := decodeLast_width_le s
  by_cases hw : 2 ≤ (DecodeLastRuneInString s).2
  · rcases decodeLast_cases s hs with h | ⟨start, _, h1, h2⟩
    · omega
    · rw [h2] at hw ⊢
      have hst : s.length - (DecodeRuneInString (s.drop start)).2 = start := by omega
      rw [hst]
      have hdl : (s.drop start).length = (DecodeRuneInString (s.drop start)).2 := by
        rw [List.length_drop]; omega
      obtain ⟨a, u, t, he, ha, _, _, _⟩ := decode_multi (s.drop start) hw
      have hne : s.drop start ≠ [] := by rw [he]; simp
      have hsplit : rangeRunes (s.take start ++ s.drop start) =
          rangeRunes (s.take start) ++ rangeRunes (s.drop start) := by
        apply rangeRunes_append_nil_or
        intro x w hx
        rw [he] at hx
        simp only [List.cons.injEq] at hx
        unfold IsCont
        omega
      rw [List.take_append_drop] at hsplit
      rw [hsplit, rangeRunes_unit _ hne hdl.symm, List.dropLast_concat]
  · have hw1 : (DecodeLastRuneInString s).2 = 1 := by omega
    rw [hw1]
    have hlen : 0 < s.length := List.length_pos.2 hs
    have hd1 : (s.drop (s.length - 1)).length = 1 := by
      rw [List.length_drop]; omega
    obtain ⟨b, hb⟩ := List.length_eq_one.1 hd1
    have hunit : rangeRunes [b] = [(DecodeRuneInString [b]).1] := by
      apply rangeRunes_unit _ (by simp)
      have h1 := decode_width_pos [b] (by simp)
      have h2 := decode_width_le [b]
      simp only [List.length_singleton] at h2 ⊢
      omega
    have hs' : s = s.take (s.length - 1) ++ [b] := by
      rw [← hb, List.take_append_drop]
    rcases rangeRunes_append_cases _ (s.take (s.length - 1)) [b] (le_refl _) with
      h | ⟨q1, q2, t1, t2, e1, e2, hq2, ht1, hdec⟩
    · rw [← hs'] at h
      rw [h, hunit, List.dropLast_concat]
    · exfalso
      rcases t1 with _ | ⟨y, t1⟩
      · exact ht1 rfl
      simp only [List.cons_append, List.cons.injEq] at e2
      obtain ⟨rfl, e2⟩ := e2
      have ht1' : t1 = [] := by
        rcases t1 with _ | ⟨z, t1⟩
        · rfl
        · simp at e2
      subst ht1'
      have hq2l : 0 < q2.length := List.length_pos.2 hq2
      have hdl := decodeLast_unit q1 (q2 ++ [b]) (by simp; omega) hdec
      have hs2 : s = q1 ++ (q2 ++ [b]) := by
        rw [← List.append_assoc, ← e1]; exact hs'
      rw [← hs2] at hdl
      rw [hdl, hdec] at hw1
      simp only [List.length_append, List.length_singleton] at hw1
      omega

/-! ## Iteration bounds of the matcher -/

/-- Every round of `starLoop` shortens the string, so the result does not depend on
the bound once the bound is at least the length of the string. -/
theorem starLoop_fuel (f : GoString → List GoString) (n : Nat) : ∀ (m : Nat) (s : GoString),
    s.length ≤ n → s.length ≤ m → starLoop f n s = starLoop f m s := by
  induction n with
  | zero =>
    intro m s hn _
    have hs : s = [] := List.eq_nil_of_length_eq_zero (by omega)
    subst hs
    cases m with
    | zero => rfl
    | succ m => simp [starLoop]
  | succ n ih =>
    intro m s hn hm
    rcases m with _ | m
    · have hs : s = [] := List.eq_nil_of_length_eq_zero (by omega)
      subst hs
      simp [starLoop]
    · simp only [starLoop]
      congr 2
      apply List.map_congr_left
      intro t ht
      have hlt : t.length < s.length := by
        have := (List.mem_filter.1 ht).2
        simpa using this
      exact ih m t (by omega) (by omega)

/-- Every step of the replacement consumes at least one byte, so the result does not
depend on the bound once the bound is at least the length of the string. -/
theorem replaceAllAux_fuel (re : Re) (n : Nat) : ∀ (m : Nat) (s : GoString),
    s.length ≤ n → s.length ≤ m → replaceAllAux re n s = replaceAllAux re m s := by
  induction n with
  | zero =>
    intro m s hn _
    have hs : s = [] := List.eq_nil_of_length_eq_zero (by omega)
    subst hs
    cases m <;> rfl
  | succ n ih =>
    intro m s hn hm
    rcases s with _ | ⟨a, t⟩
    · cases m <;> rfl
    · rcases m with _ | m
      · simp at hm
      · have hw := decode_width_pos (a :: t) (by simp)
        have hdrop : ((a :: t).drop (DecodeRuneInString (a :: t)).2).length ≤ n ∧
            ((a :: t).drop (DecodeRuneInString (a :: t)).2).length ≤ m := by
          simp only [List.length_drop, List.length_cons] at hn hm ⊢
          omega
        simp only [replaceAllAux]
        rcases hmr : matchRe re (a :: t) with _ | ⟨u, us⟩
        · simp only
          rw [ih m _ hdrop.1 hdrop.2]
        · simp only
          by_cases hu : u.length < (a :: t).length
          · rw [if_pos hu, if_pos hu]
            simp only [List.length_cons] at hu hn hm
            exact ih m u (by omega) (by omega)
          · rw [if_neg hu, if_neg hu, ih m _ hdrop.1 hdrop.2]

/-! ## `ansiRegex` and sanitised buffers -/

/-- Wherever `ansiRegex` matches, the first rune is ESC or CSI. -/
theorem matchRe_ansi_nil (s : GoString) (h : isIntro (DecodeRuneInString s).1 = false) :
    matchRe ansiRegex s = [] := by
  rcases s with _ | ⟨a, t⟩
  · rfl
  · simp only [ansiRegex, matchRe, h, Bool.false_eq_true, if_false, List.map_nil,
      List.flatten_nil]

theorem isIntro_of_print (tbl : Int → Bool) (r : Int) (h : IsPrint tbl r = true) :
    isIntro r = false := by
  unfold isIntro
  by_cases h1 : r = 0x1B
  · subst h1; simp [IsPrint, latin1Print] at h
  by_cases h2 : r = 0x9B
  · subst h2; simp [IsPrint, latin1Print] at h
  simp [h1, h2]

/-- On a string none of whose runes is ESC or CSI the replacement changes nothing. -/
theorem replaceAllAux_id (n : Nat) : ∀ s : GoString,
    (∀ r ∈ rangeRunes s, isIntro r = false) → replaceAllAux ansiRegex n s = s := by
  induction n with
  | zero => intro s _; rfl
  | succ n ih =>
    intro s h
    rcases s with _ | ⟨a, t⟩
    · rfl
    · have hc := rangeRunes_cons (a :: t) (by simp)
      have h1 : isIntro (DecodeRuneInString (a :: t)).1 = false :=
        h _ (by rw [hc]; simp)
      have h2 : ∀ r ∈ rangeRunes ((a :: t).drop (DecodeRuneInString (a :: t)).2),
          isIntro r = false := fun r hr => h r (by rw [hc]; simp [hr])
      simp only [replaceAllAux, matchRe_ansi_nil _ h1, ih _ h2, List.take_append_drop]

theorem replaceAll_id (s : GoString) (h : ∀ r ∈ rangeRunes s, isIntro r = false) :
    ReplaceAllString ansiRegex s = s :=
  replaceAllAux_id _ s h

/-- In a string none of whose runes is ESC or CSI, `ansiRegex` matches at no byte
offset. -/
theorem containsMatch_false (s : GoString) (h : ∀ r ∈ rangeRunes s, isIntro r = false) :
    containsMatch ansiRegex s = false := by
  unfold containsMatch
  rw [List.any_eq_false]
  intro i _
  have hnil : matchRe ansiRegex (s.drop i) = [] := by
    apply matchRe_ansi_nil
    rcases hd : s.drop i with _ | ⟨x, u⟩
    · rfl
    · by_cases hx : IsCont x
      · rw [decode_cont_head x u hx]; rfl
      · have hsplit := rangeRunes_append (s.take i) x u hx
        rw [← hd, List.take_append_drop, hd, rangeRunes_cons (x :: u) (by simp)] at hsplit
        exact h _ (by rw [hsplit]; simp)
  simp [hnil]

/-- A buffer all of whose runes are printable is sanitised. -/
theorem sanitised_of_print (tbl : Int → Bool) (s : GoString)
    (h : ∀ r ∈ rangeRunes s, IsPrint tbl r = true) : Sanitised tbl s :=
  ⟨List.all_eq_true.2 h,
    containsMatch_false s (fun r hr => isIntro_of_print tbl r (h r hr))⟩

theorem sanitised_print (tbl : Int → Bool) (s : GoString) (h : Sanitised tbl s) :
    ∀ r ∈ rangeRunes s, IsPrint tbl r = true :=
  List.all_eq_true.1 h.1

/-- The keypress branch of `inputReducer` returns a sanitised buffer, whatever the
buffer was before. -/
theorem sanitised_filter (tbl : Int → Bool) (x : GoString) :
    Sanitised tbl (encodeRunes ((rangeRunes x).filter (fun r => IsPrint tbl r))) := by
  apply sanitised_of_print
  have hv : ∀ r ∈ (rangeRunes x).filter (fun r => IsPrint tbl r), ValidRune r :=
    fun r hr => rangeRunes_valid _ x (le_refl _) r (List.mem_filter.1 hr).1
  rw [rangeRunes_encode _ hv]
  intro r hr
  exact (List.mem_filter.1 hr).2

theorem inputReducer_sanitised (tbl : Int → Bool) (i : GoString) (b : Bool) (e : Event)
    (h : Sanitised tbl i) : Sanitised tbl (inputReducer tbl i b e) := by
  have hnil : Sanitised tbl [] := by
    unfold Sanitised; exact ⟨rfl, rfl⟩
  cases e with
  | ConnStartedEvent => exact hnil
  | SentMessageEvent t => exact hnil
  | KeypressEvent r =>
    cases b
    · exact h
    · exact sanitised_filter tbl _
  | BackspaceEvent =>
    cases b
    · exact h
    · by_cases hl : i.length = 0
      · simp only [inputReducer, Bool.not_true, Bool.false_eq_true, if_false, hl, if_true]
        exact h
      · simp only [inputReducer, Bool.not_true, Bool.false_eq_true, if_false, hl]
        apply sanitised_of_print
        have hi : i ≠ [] := fun h0 => hl (by rw [h0]; rfl)
        rw [rangeRunes_dropLast i hi]
        intro r hr
        exact sanitised_print tbl i h r (List.mem_of_mem_dropLast hr)
  | _ => exact h

/-! ## The shape of `StateReducer` -/

theorem StateReducer_Messages (tbl : Int → Bool) (s : State) (e : Event) :
    (StateReducer tbl s e).Messages = messagesReducer s.Messages e := rfl

theorem StateReducer_ChatActive (tbl : Int → Bool) (s : State) (e : Event) :
    (StateReducer tbl s e).ChatActive = chatActiveReducer s.ChatActive e := rfl

/-- The input reducer is handed the chat flag as `chatActiveReducer` has just
updated it: the assignment to `s.ChatActive` comes first in `StateReducer`. -/
theorem StateReducer_Input (tbl : Int → Bool) (s : State) (e : Event) :
    (StateReducer tbl s e).Input =
      inputReducer tbl s.Input (chatActiveReducer s.ChatActive e) e := rfl

/-- On the events where `inputReducer` reads the chat flag, `chatActiveReducer` leaves
the flag alone, so the updated flag and the prior one give the same input. -/
theorem inputReducer_chatActive (tbl : Int → Bool) (i : GoString) (b : Bool) (e : Event) :
    inputReducer tbl i (chatActiveReducer b e) e = inputReducer tbl i b e := by
  cases e <;> rfl

theorem messagesReducer_append (m : List Message) (e : Event) :
    ∃ t, messagesReducer m e = m ++ t ∧ t.length ≤ 1 := by
  cases e with
  | ConnEndedEvent r =>
    cases r <;>
      first
      | exact ⟨[_], rfl, by simp⟩
      | exact ⟨[], (List.append_nil _).symm, by simp⟩
  | LogEvent l t => exact ⟨_, rfl, by simp⟩
  | SentMessageEvent t => exact ⟨_, rfl, by simp⟩
  | ReceivedChatEvent t => exact ⟨_, rfl, by simp⟩
  | ConnStartedEvent => exact ⟨_, rfl, by simp⟩
  | _ => exact ⟨[], (List.append_nil _).symm, by simp⟩

theorem run_append (tbl : Int → Bool) (s : State) (es : List Event) (e : Event) :
    run tbl s (es ++ [e]) = StateReducer tbl (run tbl s es) e := by
  simp [run, List.foldl_append]

/-- The backward scan does not depend on the iteration bound once the bound exceeds
the start position: the loop of `DecodeLastRuneInString` always terminates by its own
condition. -/
theorem scanBack_fuel (s : GoString) (lim : Nat) :
    ∀ (n m k : Nat), k < n → k < m → scanBack s lim n k = scanBack s lim m k := by
  intro n
  induction n with
  | zero => intro m k h; omega
  | succ n ih =>
    intro m k hn hm
    rcases m with _ | m
    · omega
    · unfold scanBack
      by_cases h1 : lim < k
      · rw [if_pos h1, if_pos h1]
        by_cases h2 : RuneStart (s.getD (k - 1) 0) = true
        · rw [if_pos h2, if_pos h2]
        · rw [if_neg h2, if_neg h2]
          exact ih m (k - 1) (by omega) (by omega)
      · rw [if_neg h1, if_neg h1]

/-- The last rune of a string that ends with the encoding of a scalar value. -/
theorem decodeLast_encode (p : GoString) (c : Int) (hc : ValidRune c) :
    DecodeLastRuneInString (p ++ EncodeRune c) = (c, (EncodeRune c).length) := by
  have hd := decode_encode c hc []
  rw [List.append_nil] at hd
  by_cases h1 : c ≤ 0x7F
  · have e := encode_ascii c hc.1 h1
    rw [e]
    unfold DecodeLastRuneInString
    simp only [List.length_append, List.length_singleton]
    have hg : (p ++ [c.toNat]).getD (p.length + 1 - 1) 0 = c.toNat := by
      rw [List.getD_append_right _ _ _ _ (by omega)]
      have : p.length + 1 - 1 - p.length = 0 := by omega
      rw [this, List.getD_cons_zero]
    rw [if_neg (by omega), hg, if_pos (by omega)]
    simp only [Prod.mk.injEq, and_true]
    have := hc.1
    omega
  · have h2 : 2 ≤ (EncodeRune c).length := by
      rcases encode_cases c hc with ⟨c0, e⟩ | ⟨c1, c2, e⟩ | ⟨c1, c2, e⟩ | ⟨c1, e⟩
      · omega
      · rw [e]; simp
      · rw [e]; simp
      · rw [e]; simp
    rw [decodeLast_unit p (EncodeRune c) h2 (by rw [hd]), hd]

theorem encode_length (c : Int) : 1 ≤ (EncodeRune c).length ∧ (EncodeRune c).length ≤ 4 := by
  obtain ⟨a, u, he, _, hu⟩ := encode_head c
  rw [he, List.length_cons]
  omega

/-! ## The claims -/

/-- Claim C1. For every state and every event, the messages after `StateReducer` have
the prior messages as a prefix (same records, same order), and their number is the
prior number or one more. -/
theorem messages_prefix_preserved (tbl : Int → Bool) (s : State) (e : Event) :
    s.Messages <+: (StateReducer tbl s e).Messages ∧
      ((StateReducer tbl s e).Messages.length = s.Messages.length ∨
        (StateReducer tbl s e).Messages.length = s.Messages.length + 1) := by
  obtain ⟨t, ht, hl⟩ := messagesReducer_append s.Messages e
  rw [StateReducer_Messages, ht]
  refine ⟨⟨t, rfl⟩, ?_⟩
  simp only [List.length_append]
  omega

/-- Claim C2. "The input holds no unprintable code point and no substring matching
`ansiRegex`" is an invariant of `StateReducer`: it holds of the initial empty input,
every event takes a state whose input satisfies it to a state whose input satisfies
it, and so it holds in every state reached from the initial state. -/
theorem input_sanitised_invariant (tbl : Int → Bool) :
    Sanitised tbl initialState.Input ∧
    (∀ (s : State) (e : Event), Sanitised tbl s.Input →
      Sanitised tbl (StateReducer tbl s e).Input) ∧
    (∀ es : List Event, Sanitised tbl (run tbl initialState es).Input) := by
  have h0 : Sanitised tbl initialState.Input := ⟨rfl, rfl⟩
  have hstep : ∀ (s : State) (e : Event), Sanitised tbl s.Input →
      Sanitised tbl (StateReducer tbl s e).Input := by
    intro s e h
    rw [StateReducer_Input]
    exact inputReducer_sanitised tbl _ _ e h
  refine ⟨h0, hstep, ?_⟩
  intro es
  induction es using List.reverseRecOn with
  | nil => exact h0
  | append_singleton es e ih =>
    rw [run_append]
    exact hstep _ e ih

/-- Claim C2, at a concrete step: the sanitised input "hi" stays sanitised when ESC
is typed. -/
theorem input_sanitised_invariant_witness :
    Sanitised (fun _ => true) (chatting (lit "hi")).Input ∧
      Sanitised (fun _ => true)
        (StateReducer (fun _ => true) (chatting (lit "hi")) (KeypressEvent 0x1B)).Input :=
  ⟨by decide, (input_sanitised_invariant (fun _ => true)).2.1 _ _ (by decide)⟩

/-- The example of the spec, for every print table: with the chat open and input
"hi", the keypresses ESC, `[`, `3`, `1`, `m`, `!` leave the input "hi[31m!". -/
theorem escape_example_run (tbl : Int → Bool) :
    (run tbl (chatting (lit "hi"))
      [KeypressEvent 0x1B, KeypressEvent 0x5B, KeypressEvent 0x33, KeypressEvent 0x31,
        KeypressEvent 0x6D, KeypressEvent 0x21]).Input = lit "hi[31m!" := by
  have h1 : StateReducer tbl (chatting (lit "hi")) (KeypressEvent 0x1B) =
      chatting (lit "hi") := rfl
  have h2 : StateReducer tbl (chatting (lit "hi")) (KeypressEvent 0x5B) =
      chatting (lit "hi[") := rfl
  have h3 : StateReducer tbl (chatting (lit "hi[")) (KeypressEvent 0x33) =
      chatting (lit "hi[3") := rfl
  have h4 : StateReducer tbl (chatting (lit "hi[3")) (KeypressEvent 0x31) =
      chatting (lit "hi[31") := rfl
  have h5 : StateReducer tbl (chatting (lit "hi[31")) (KeypressEvent 0x6D) =
      chatting (lit "hi[31m") := rfl
  have h6 : StateReducer tbl (chatting (lit "hi[31m")) (KeypressEvent 0x21) =
      chatting (lit "hi[31m!") := rfl
  simp only [run, List.foldl_cons, List.foldl_nil, h1, h2, h3, h4, h5, h6]
  rfl

/-- Claim C3 as stated fails on its own example. With the chat open and input "hi",
the keypresses ESC, `[`, `3`, `1`, `m`, `!` leave the input "hi[31m!", and for no
print table do they leave "hi!": the ESC is dropped as unprintable by its own
keypress, so the buffer never holds the sequence ESC `[31m`, and its tail is kept as
text. -/
theorem split_escape_not_stripped :
    (run sampleTable (chatting (lit "hi"))
        [KeypressEvent 0x1B, KeypressEvent 0x5B, KeypressEvent 0x33, KeypressEvent 0x31,
          KeypressEvent 0x6D, KeypressEvent 0x21]).Input = lit "hi[31m!" ∧
    ¬ ∃ tbl : Int → Bool,
      (run tbl (chatting (lit "hi"))
        [KeypressEvent 0x1B, KeypressEvent 0x5B, KeypressEvent 0x33, KeypressEvent 0x31,
          KeypressEvent 0x6D, KeypressEvent 0x21]).Input = lit "hi!" := by
  refine ⟨escape_example_run sampleTable, ?_⟩
  rintro ⟨tbl, h⟩
  rw [escape_example_run tbl] at h
  exact absurd h (by decide)

/-- Claim C4. With the chat open and an input that is the UTF-8 encoding of the
scalar values `cs` followed by `c`, `BackspaceEvent` leaves exactly the encoding of
`cs`: the code points lose their last one, and the byte length drops by the whole
encoded width of `c`, between 1 and 4 bytes. On an empty input `BackspaceEvent` leaves
the input empty. -/
theorem backspace_removes_last_rune (tbl : Int → Bool) (s : State) (cs : List Int) (c : Int)
    (hA : s.ChatActive = true) (hv : ∀ r ∈ cs ++ [c], ValidRune r)
    (hI : s.Input = encodeRunes (cs ++ [c])) :
    (StateReducer tbl s BackspaceEvent).Input = encodeRunes cs ∧
    rangeRunes s.Input = cs ++ [c] ∧
    rangeRunes (StateReducer tbl s BackspaceEvent).Input = cs ∧
    (StateReducer tbl s BackspaceEvent).Input.length + (EncodeRune c).length =
      s.Input.length ∧
    1 ≤ (EncodeRune c).length ∧ (EncodeRune c).length ≤ 4 ∧
    (∀ s0 : State, s0.Input = [] → (StateReducer tbl s0 BackspaceEvent).Input = []) := by
  have hc : ValidRune c := hv c (by simp)
  have hcs : ∀ r ∈ cs, ValidRune r := fun r hr => hv r (by simp [hr])
  have hI2 : s.Input = encodeRunes cs ++ EncodeRune c := by
    rw [hI, encodeRunes_append]
    simp [encodeRunes]
  have hlen := encode_length c
  have hres : (StateReducer tbl s BackspaceEvent).Input = encodeRunes cs := by
    rw [StateReducer_Input, hA]
    have hne : ¬ (s.Input.length = 0) := by
      rw [hI2, List.length_append]; omega
    simp only [chatActiveReducer, inputReducer, Bool.not_true, Bool.false_eq_true, if_false,
      hne]
    rw [hI2, decodeLast_encode _ c hc]
    simp only [List.length_append, Nat.add_sub_cancel]
    exact List.take_left' rfl
  refine ⟨hres, ?_, ?_, ?_, hlen.1, hlen.2, ?_⟩
  · rw [hI]; exact rangeRunes_encode _ hv
  · rw [hres]; exact rangeRunes_encode _ hcs
  · rw [hres, hI2, List.length_append]
  · intro s0 h0
    rw [StateReducer_Input, h0]
    cases hb : chatActiveReducer s0.ChatActive BackspaceEvent <;> rfl

/-- Claim C4, at a concrete input: backspace on "h€" (bytes 68 E2 82 AC) removes
the three bytes of the euro sign and leaves "h". -/
theorem backspace_removes_last_rune_witness :
    (chatting [0x68, 0xE2, 0x82, 0xAC]).ChatActive = true ∧
    (∀ r ∈ [0x68] ++ [(0x20AC : Int)], ValidRune r) ∧
    (chatting [0x68, 0xE2, 0x82, 0xAC]).Input = encodeRunes ([0x68] ++ [0x20AC]) ∧
    (StateReducer (fun _ => true) (chatting [0x68, 0xE2, 0x82, 0xAC]) BackspaceEvent).Input =
      [0x68] :=
  ⟨rfl, by decide, by decide,
    (backspace_removes_last_rune (fun _ => true) (chatting [0x68, 0xE2, 0x82, 0xAC])
      [0x68] 0x20AC rfl (by decide) (by decide)).1⟩

/-- Claim C5. Folding any finite sequence of events from a state with the chat
closed, the chat is open at the end exactly when the sequence holds a
`DataOpenedEvent` with no `ConnEndedEvent` (of any reason) after it. In particular
`[DataOpenedEvent]` opens it and `[DataOpenedEvent, ConnEndedEvent Normal]` leaves it
closed. -/
theorem chatActive_iff_open_unended (tbl : Int → Bool) (s : State) (es : List Event)
    (h : s.ChatActive = false) :
    ((run tbl s es).ChatActive = true ↔
      ∃ pre post, es = pre ++ DataOpenedEvent :: post ∧
        ∀ e ∈ post, ∀ r, e ≠ ConnEndedEvent r) ∧
    (run tbl s [DataOpenedEvent]).ChatActive = true ∧
    (run tbl s [DataOpenedEvent, ConnEndedEvent EndConnNormal]).ChatActive = false := by
  refine ⟨?_, rfl, rfl⟩
  induction es using List.reverseRecOn with
  | nil => simp [run, h]
  | append_singleton es e ih =>
    rw [run_append, StateReducer_ChatActive]
    by_cases hD : e = DataOpenedEvent
    · subst hD
      simp only [chatActiveReducer, true_iff]
      exact ⟨es, [], rfl, by simp⟩
    by_cases hC : ∃ r, e = ConnEndedEvent r
    · obtain ⟨r, rfl⟩ := hC
      simp only [chatActiveReducer, Bool.false_eq_true, false_iff, not_exists, not_and]
      intro pre post hEq hAll
      rcases List.eq_nil_or_concat post with hp | ⟨post', x, hp⟩
      · subst hp
        have := List.append_inj_right' hEq rfl
        simp at this
      · subst hp
        have h2 : es ++ [ConnEndedEvent r] = (pre ++ DataOpenedEvent :: post') ++ [x] := by
          simpa using hEq
        have := List.append_inj_right' h2 rfl
        simp at this
        exact hAll x (by simp) r this.symm
    · have hred : chatActiveReducer (run tbl s es).ChatActive e = (run tbl s es).ChatActive := by
        cases e <;> first | rfl | exact absurd rfl hD | exact absurd ⟨_, rfl⟩ hC
      rw [hred, ih]
      constructor
      · rintro ⟨pre, post, rfl, hAll⟩
        refine ⟨pre, post ++ [e], by simp, ?_⟩
        intro x hx r
        rcases List.mem_append.1 hx with hx | hx
        · exact hAll x hx r
        · simp at hx; subst hx; exact fun he => hC ⟨r, he⟩
      · rintro ⟨pre, post, hEq, hAll⟩
        rcases List.eq_nil_or_concat post with hp | ⟨post', x, hp⟩
        · subst hp
          have := List.append_inj_right' hEq rfl
          simp at this
          exact absurd this hD
        · subst hp
          have h2 : es ++ [e] = (pre ++ DataOpenedEvent :: post') ++ [x] := by
            simpa using hEq
          have h3 := List.append_inj_left' h2 rfl
          exact ⟨pre, post', h3, fun y hy => hAll y (by simp [hy])⟩

/-- Claim C5, at a concrete sequence: from the initial state, data opened, a
keypress, then a log line leave the chat open. -/
theorem chatActive_iff_open_unended_witness :
    initialState.ChatActive = false ∧
    (run (fun _ => true) initialState
      [DataOpenedEvent, KeypressEvent 0x68, LogEvent LogLevelInfo (lit "x")]).ChatActive =
        true :=
  ⟨rfl, ((chatActive_iff_open_unended (fun _ => true) initialState
    [DataOpenedEvent, KeypressEvent 0x68, LogEvent LogLevelInfo (lit "x")] rfl).1).2
      ⟨[], [KeypressEvent 0x68, LogEvent LogLevelInfo (lit "x")], rfl, by simp⟩⟩

/-- Claim C6. `StateReducer` is the state whose seven fields are the seven field
reducers applied to the fields of the prior state and the same event; the input
reducer gets the prior chat flag, and no field depends on another reducer's output. -/
theorem StateReducer_fieldwise (tbl : Int → Bool) (s : State) (e : Event) :
    StateReducer tbl s e =
      { Image := imageReducer s.Image e,
        ChatActive := chatActiveReducer s.ChatActive e,
        Input := inputReducer tbl s.Input s.ChatActive e,
        Messages := messagesReducer s.Messages e,
        Page := pageReducer s.Page e,
        WinSize := winSizeReducer s.WinSize e,
        HelpOn := helpOnReducer s.HelpOn e } := by
  simp only [StateReducer, inputReducer_chatActive]

/-- Claim C7. On `ConnEndedEvent` with reason `r` the chat is closed; the messages
are unchanged exactly when `r` is the setup or the match error, and otherwise gain
one record with empty user: info "Skipping..." for normal, error "Connection timed
out." for timed out, error "Lost connection." for disconnected, info "Your partner
left the chat." for gone. -/
theorem connEnded_effect (tbl : Int → Bool) (s : State) (r : EndConnReason) :
    (StateReducer tbl s (ConnEndedEvent r)).ChatActive = false ∧
    ((StateReducer tbl s (ConnEndedEvent r)).Messages = s.Messages ↔
      (r = EndConnSetupError ∨ r = EndConnMatchError)) ∧
    (r = EndConnNormal → (StateReducer tbl s (ConnEndedEvent r)).Messages =
      s.Messages ++ [{ Typ := MessageTypeInfo, User := [], Text := lit "Skipping..." }]) ∧
    (r = EndConnTimedOut → (StateReducer tbl s (ConnEndedEvent r)).Messages =
      s.Messages ++
        [{ Typ := MessageTypeError, User := [], Text := lit "Connection timed out." }]) ∧
    (r = EndConnDisconnected → (StateReducer tbl s (ConnEndedEvent r)).Messages =
      s.Messages ++ [{ Typ := MessageTypeError, User := [], Text := lit "Lost connection." }]) ∧
    (r = EndConnGone → (StateReducer tbl s (ConnEndedEvent r)).Messages =
      s.Messages ++
        [{ Typ := MessageTypeInfo, User := [], Text := lit "Your partner left the chat." }]) := by
  refine ⟨rfl, ?_, ?_, ?_, ?_, ?_⟩
  · cases r <;> simp [StateReducer, messagesReducer]
  all_goals rintro rfl; rfl

/-- Claim C8. On `SentMessageEvent t` the help overlay is off, the input is empty and
the messages gain the single record outgoing, "You", `t`; image, chat flag, page and
window size keep their values. -/
theorem sentMessage_effect (tbl : Int → Bool) (s : State) (t : GoString) :
    (StateReducer tbl s (SentMessageEvent t)).HelpOn = false ∧
    (StateReducer tbl s (SentMessageEvent t)).Input = [] ∧
    (StateReducer tbl s (SentMessageEvent t)).Messages =
      s.Messages ++ [{ Typ := MessageTypeOutgoing, User := lit "You", Text := t }] ∧
    (StateReducer tbl s (SentMessageEvent t)).Image = s.Image ∧
    (StateReducer tbl s (SentMessageEvent t)).ChatActive = s.ChatActive ∧
    (StateReducer tbl s (SentMessageEvent t)).Page = s.Page ∧
    (StateReducer tbl s (SentMessageEvent t)).WinSize = s.WinSize :=
  ⟨rfl, rfl, rfl, rfl, rfl, rfl, rfl⟩

/-- Claim C9. `messagesReducer` appends incoming, "Them", `t` on a received chat;
info, "", "Connected" on a connection start; and on a log event the text with empty
user, as an error when the level is error and as info when it is info. -/
theorem messagesReducer_table (m : List Message) (t : GoString) :
    messagesReducer m (ReceivedChatEvent t) =
      m ++ [{ Typ := MessageTypeIncoming, User := lit "Them", Text := t }] ∧
    messagesReducer m ConnStartedEvent =
      m ++ [{ Typ := MessageTypeInfo, User := [], Text := lit "Connected" }] ∧
    messagesReducer m (LogEvent LogLevelError t) =
      m ++ [{ Typ := MessageTypeError, User := [], Text := t }] ∧
    messagesReducer m (LogEvent LogLevelInfo t) =
      m ++ [{ Typ := MessageTypeInfo, User := [], Text := t }] :=
  ⟨rfl, rfl, rfl, rfl⟩

/-- Claim C10. Identity default, field by field: each field of `StateReducer tbl s e`
equals the field of `s` unless `e` is one of the events that field's reducer switches
on; and on an event of a type outside the thirteen, the whole state is unchanged. -/
theorem identity_default (tbl : Int → Bool) (s : State) (e : Event) :
    ((∀ img, e ≠ FrameEvent img) → (∀ p, e ≠ SetPageEvent p) → e ≠ SkipEvent →
      (StateReducer tbl s e).Image = s.Image) ∧
    (e ≠ DataOpenedEvent → (∀ r, e ≠ ConnEndedEvent r) →
      (StateReducer tbl s e).ChatActive = s.ChatActive) ∧
    (e ≠ ConnStartedEvent → (∀ r, e ≠ KeypressEvent r) → e ≠ BackspaceEvent →
      (∀ t, e ≠ SentMessageEvent t) → (StateReducer tbl s e).Input = s.Input) ∧
    ((∀ t, e ≠ SentMessageEvent t) → (∀ t, e ≠ ReceivedChatEvent t) →
      (∀ r, e ≠ ConnEndedEvent r) → e ≠ ConnStartedEvent → (∀ l t, e ≠ LogEvent l t) →
      (StateReducer tbl s e).Messages = s.Messages) ∧
    ((∀ p, e ≠ SetPageEvent p) → (StateReducer tbl s e).Page = s.Page) ∧
    ((∀ w, e ≠ ResizeEvent w) → (StateReducer tbl s e).WinSize = s.WinSize) ∧
    (e ≠ ToggleHelpEvent → e ≠ SkipEvent → (∀ t, e ≠ SentMessageEvent t) →
      (StateReducer tbl s e).HelpOn = s.HelpOn) ∧
    (∀ tag, StateReducer tbl s (OtherEvent tag) = s) := by
  refine ⟨?_, ?_, ?_, ?_, ?_, ?_, ?_, fun _ => rfl⟩
  · intro h1 h2 h3
    cases e <;>
      first
      | rfl
      | exact absurd rfl (h1 _)
      | exact absurd rfl (h2 _)
      | exact absurd rfl h3
  · intro h1 h2
    cases e <;> first | rfl | exact absurd rfl h1 | exact absurd rfl (h2 _)
  · intro h1 h2 h3 h4
    cases e <;>
      first
      | rfl
      | exact absurd rfl h1
      | exact absurd rfl (h2 _)
      | exact absurd rfl h3
      | exact absurd rfl (h4 _)
  · intro h1 h2 h3 h4 h5
    cases e <;>
      first
      | rfl
      | exact absurd rfl (h1 _)
      | exact absurd rfl (h2 _)
      | exact absurd rfl (h3 _)
      | exact absurd rfl h4
      | exact absurd rfl (h5 _ _)
  · intro h1
    cases e <;> first | rfl | exact absurd rfl (h1 _)
  · intro h1
    cases e <;> first | rfl | exact absurd rfl (h1 _)
  · intro h1 h2 h3
    cases e <;>
      first
      | rfl
      | exact absurd rfl h1
      | exact absurd rfl h2
      | exact absurd rfl (h3 _)

/-! ## A keypress on a sanitised buffer -/

/-- Decoding at the start of `q` does not read into what follows `q` when that starts
with a byte that is not a continuation byte. -/
theorem decode_append_start (q : GoString) (x : Nat) (t : GoString) (hq : q ≠ [])
    (hx : ¬ IsCont x) : DecodeRuneInString (q ++ x :: t) = DecodeRuneInString q := by
  by_cases hw : (DecodeRuneInString (q ++ x :: t)).2 ≤ q.length
  · exact decode_append q (x :: t) hq hw
  · exfalso
    have hpos : 0 < q.length := List.length_pos.2 hq
    obtain ⟨a, u, t', he, _, hlen, _, hall⟩ := decode_multi (q ++ x :: t) (by omega)
    rcases q with _ | ⟨a', q⟩
    · exact hq rfl
    simp only [List.cons_append, List.cons.injEq] at he
    obtain ⟨_, he⟩ := he
    simp only [List.length_cons] at hw
    have hmem : x ∈ u := by
      have h1 : (q ++ x :: t).take u.length = u := by
        rw [he, List.take_left']
        rfl
      have h2 : q.length < u.length := by omega
      rw [← h1, List.take_append_eq_append_take]
      have h3 : u.length - q.length = (u.length - q.length - 1) + 1 := by omega
      rw [h3, List.take_succ_cons]
      simp
    exact hx (hall x hmem)

/-- The pattern needs a second rune after ESC or CSI: it matches no string that is a
single rune. -/
theorem matchRe_ansi_unit (z : GoString) (h : (DecodeRuneInString z).2 = z.length) :
    matchRe ansiRegex z = [] := by
  rcases z with _ | ⟨a, t⟩
  · rfl
  · have hd : (a :: t).drop (DecodeRuneInString (a :: t)).2 = [] := by
      rw [h, List.drop_length]
    by_cases hi : isIntro (DecodeRuneInString (a :: t)).1 = true
    · simp only [ansiRegex, matchRe, hi, if_true, hd, List.map_cons, List.map_nil,
        List.flatten_cons, List.flatten_nil, List.append_nil]
      rfl
    · exact matchRe_ansi_nil _ (by simpa using hi)

theorem replaceAllAux_nil (re : Re) (n : Nat) : replaceAllAux re n [] = [] := by
  cases n <;> rfl

/-- The replacement changes nothing in a string whose runes are none of them ESC or
CSI, followed by at most one more rune of any kind. -/
theorem replaceAllAux_append_unit (n : Nat) : ∀ (q z : GoString),
    (∀ r ∈ rangeRunes q, isIntro r = false) →
    (∀ x u, z = x :: u → ¬ IsCont x) →
    (DecodeRuneInString z).2 = z.length →
    replaceAllAux ansiRegex n (q ++ z) = q ++ z := by
  induction n with
  | zero => intro q z _ _ _; rfl
  | succ n ih =>
    intro q z hq hz hu
    rcases q with _ | ⟨a, q⟩
    · rcases z with _ | ⟨x, u⟩
      · rfl
      · simp only [List.nil_append, replaceAllAux, matchRe_ansi_unit _ hu]
        rw [hu, List.drop_length, replaceAllAux_nil, List.take_length, List.append_nil]
    · have hc := rangeRunes_cons (a :: q) (by simp)
      have hdec : DecodeRuneInString (a :: q ++ z) = DecodeRuneInString (a :: q) := by
        rcases z with _ | ⟨x, u⟩
        · rw [List.append_nil]
        · exact decode_append_start (a :: q) x u (by simp) (hz x u rfl)
      have h1 : isIntro (DecodeRuneInString (a :: q ++ z)).1 = false := by
        rw [hdec]; exact hq _ (by rw [hc]; simp)
      have h2 : ∀ r ∈ rangeRunes ((a :: q).drop (DecodeRuneInString (a :: q)).2),
          isIntro r = false := fun r hr => hq r (by rw [hc]; simp [hr])
      have hle := decode_width_le (a :: q)
      have hm := matchRe_ansi_nil _ h1
      rw [List.cons_append] at hm hdec
      simp only [List.cons_append, replaceAllAux, hm, hdec]
      rw [← List.cons_append, List.take_append_of_le_length hle,
        List.drop_append_of_le_length hle, ih _ z h2 hz hu, ← List.append_assoc,
        List.take_append_drop]

/-- The encoded rune is a single decoding unit. -/
theorem decode_encode_width (r : Int) :
    (DecodeRuneInString (EncodeRune r)).2 = (EncodeRune r).length := by
  by_cases h : ValidRune r
  · have := decode_encode r h []
    rw [List.append_nil] at this
    rw [this]
  · rw [encode_invalid r h]; rfl

/-- The rune a `range` loop reads back from `string(r)`: `r` itself when it is a
scalar value, the replacement character otherwise. -/
theorem rangeRunes_encodeRune (r : Int) :
    rangeRunes (EncodeRune r) = [if ValidRune r then r else RuneError] := by
  obtain ⟨a, u, he, _, _⟩ := encode_head r
  rw [rangeRunes_unit _ (by rw [he]; simp) (decode_encode_width r)]
  by_cases h : ValidRune r
  · have := decode_encode r h []
    rw [List.append_nil] at this
    rw [this, if_pos h]
  · rw [if_neg h, encode_invalid r h]; rfl

/-- With the chat open, a keypress on a buffer whose runes are all printable keeps
those runes and adds the typed rune when it is printable. -/
theorem keypress_sanitised (tbl : Int → Bool) (q : GoString) (r : Int)
    (hq : ∀ x ∈ rangeRunes q, IsPrint tbl x = true) :
    inputReducer tbl q true (KeypressEvent r) =
      encodeRunes (rangeRunes q ++
        (rangeRunes (EncodeRune r)).filter (fun x => IsPrint tbl x)) := by
  obtain ⟨a, u, he, ha, _⟩ := encode_head r
  have hrep : ReplaceAllString ansiRegex (q ++ EncodeRune r) = q ++ EncodeRune r := by
    unfold ReplaceAllString
    apply replaceAllAux_append_unit
    · exact fun x hx => isIntro_of_print tbl x (hq x hx)
    · intro x w hx
      rw [he] at hx
      simp only [List.cons.injEq] at hx
      rw [← hx.1]; exact ha
    · exact decode_encode_width r
  have hsplit : rangeRunes (q ++ EncodeRune r) = rangeRunes q ++ rangeRunes (EncodeRune r) := by
    rw [he]; exact rangeRunes_append q a u ha
  have hfil : (rangeRunes q).filter (fun x => IsPrint tbl x) = rangeRunes q :=
    List.filter_eq_self.2 hq
  simp only [inputReducer, Bool.not_true, Bool.false_eq_true, if_false]
  rw [hrep, hsplit, List.filter_append, hfil]

/-! ## Typing and sanitisation -/

theorem sampleTable_ok : PrintTable sampleTable := by
  refine ⟨?_, by decide⟩
  intro x hx
  unfold sampleTable at hx
  unfold ValidRune
  simp only [Bool.or_eq_true, Bool.and_eq_true, decide_eq_true_eq, beq_iff_eq] at hx
  omega

/-- A printable rune of a well-formed table is a scalar value. -/
theorem valid_of_print (tbl : Int → Bool) (ht : PrintTable tbl) (r : Int)
    (h : IsPrint tbl r = true) : ValidRune r := by
  unfold IsPrint at h
  by_cases h0 : r < 0
  · rw [if_pos h0] at h; exact absurd h (by simp)
  · rw [if_neg h0] at h
    by_cases h1 : r ≤ 0xFF
    · unfold ValidRune; omega
    · rw [if_neg h1] at h; exact ht.1 r h

/-- The keypress branch of `inputReducer` is `sanitize` after the append. -/
theorem inputReducer_keypress (tbl : Int → Bool) (s : GoString) (r : Int) :
    inputReducer tbl s true (KeypressEvent r) = sanitize tbl (s ++ EncodeRune r) := rfl

theorem sanitize_encode (tbl : Int → Bool) (ps : List Int)
    (hv : ∀ r ∈ ps, ValidRune r) (hp : ∀ r ∈ ps, IsPrint tbl r = true) :
    sanitize tbl (encodeRunes ps) = encodeRunes ps := by
  have hr := rangeRunes_encode ps hv
  unfold sanitize
  rw [replaceAll_id _ (fun r h => isIntro_of_print tbl r (hp r (by rw [hr] at h; exact h))),
    hr, List.filter_eq_self.2 hp]

/-- With the chat open, a keypress of a scalar value on the encoding of printable
scalar values appends the rune when it is printable and changes nothing otherwise. -/
theorem keypress_encoded (tbl : Int → Bool) (cs : List Int) (r : Int)
    (hcs : ∀ c ∈ cs, ValidRune c ∧ IsPrint tbl c = true) (hv : ValidRune r) :
    inputReducer tbl (encodeRunes cs) true (KeypressEvent r) =
      if IsPrint tbl r = true then encodeRunes cs ++ EncodeRune r else encodeRunes cs := by
  have hr := rangeRunes_encode cs (fun c hc => (hcs c hc).1)
  rw [keypress_sanitised tbl _ r (by rw [hr]; exact fun c hc => (hcs c hc).2), hr,
    rangeRunes_encodeRune, if_pos hv]
  by_cases hp : IsPrint tbl r = true
  · rw [if_pos hp]
    simp [hp, encodeRunes_append, encodeRunes]
  · rw [if_neg hp]
    simp [hp]

/-- A keypress of a rune that is no scalar value types the replacement character,
when the table holds it. -/
theorem keypress_invalid (tbl : Int → Bool) (cs : List Int) (r : Int)
    (hcs : ∀ c ∈ cs, ValidRune c ∧ IsPrint tbl c = true) (hv : ¬ ValidRune r)
    (hF : tbl 0xFFFD = true) :
    inputReducer tbl (encodeRunes cs) true (KeypressEvent r) =
      encodeRunes cs ++ [0xEF, 0xBF, 0xBD] := by
  have hr := rangeRunes_encode cs (fun c hc => (hcs c hc).1)
  have hp : IsPrint tbl RuneError = true := by
    unfold IsPrint RuneError
    rw [if_neg (by omega), if_neg (by omega)]
    exact hF
  rw [keypress_sanitised tbl _ r (by rw [hr]; exact fun c hc => (hcs c hc).2), hr,
    rangeRunes_encodeRune, if_neg hv]
  simp only [List.filter_cons, hp, if_true, List.filter_nil, encodeRunes_append, encodeRunes,
    List.append_nil]
  rfl

theorem encodeRunes_ne_nil (x : Int) (xs : List Int) : encodeRunes (x :: xs) ≠ [] := by
  obtain ⟨a, u, he, _, _⟩ := encode_head x
  simp [encodeRunes, he]

/-! ## The claims, continued -/

/-- Claim C11. Keyboard input is gated by the chat flag: in a state with the chat
closed, whatever its input (sanitised or not), `KeypressEvent r` and `BackspaceEvent`
leave the input as it is; the initial state with `KeypressEvent 'x'` keeps the empty
input. -/
theorem keyboard_gated (tbl : Int → Bool) (s : State) (r : Int)
    (h : s.ChatActive = false) :
    (StateReducer tbl s (KeypressEvent r)).Input = s.Input ∧
    (StateReducer tbl s BackspaceEvent).Input = s.Input ∧
    (StateReducer tbl initialState (KeypressEvent 0x78)).Input = [] := by
  refine ⟨?_, ?_, rfl⟩
  · rw [StateReducer_Input, h]; rfl
  · rw [StateReducer_Input, h]; rfl

/-- Claim C11, at a concrete state: with the chat closed, the unsanitised input
ESC `[` is left alone by the keypress `m`. -/
theorem keyboard_gated_witness :
    ({ initialState with Input := [0x1B, 0x5B] } : State).ChatActive = false ∧
    (StateReducer sampleTable { initialState with Input := [0x1B, 0x5B] }
      (KeypressEvent 0x6D)).Input = [0x1B, 0x5B] :=
  ⟨rfl, (keyboard_gated sampleTable { initialState with Input := [0x1B, 0x5B] } 0x6D rfl).1⟩

/-- Claim C12. Sanitisation is idempotent: with `sanitize b` the sanitisation the
keypress branch applies (delete every `ansiRegex` match, then every rune that is not
printable), `sanitize (sanitize b) = sanitize b` for every buffer `b`. -/
theorem sanitize_idempotent (tbl : Int → Bool) (b : GoString) :
    sanitize tbl (sanitize tbl b) = sanitize tbl b ∧
    (∀ (s : GoString) (r : Int),
      inputReducer tbl s true (KeypressEvent r) = sanitize tbl (s ++ EncodeRune r)) := by
  refine ⟨?_, fun _ _ => rfl⟩
  have hv : ∀ r ∈ (rangeRunes (ReplaceAllString ansiRegex b)).filter (fun r => IsPrint tbl r),
      ValidRune r :=
    fun r hr => rangeRunes_valid _ _ (le_refl _) r (List.mem_filter.1 hr).1
  have hp : ∀ r ∈ (rangeRunes (ReplaceAllString ansiRegex b)).filter (fun r => IsPrint tbl r),
      IsPrint tbl r = true := fun r hr => (List.mem_filter.1 hr).2
  exact sanitize_encode tbl _ hv hp

/-- Claim C13 as stated fails: with the chat open and input "a", `BackspaceEvent`
empties the input, and it is neither a `ConnStartedEvent` nor a `SentMessageEvent`. -/
theorem backspace_empties_input :
    ¬ ∀ (tbl : Int → Bool) (s : State) (e : Event), s.Input ≠ [] →
      (StateReducer tbl s e).Input = [] →
      e = ConnStartedEvent ∨ ∃ t, e = SentMessageEvent t := by
  intro h
  have h1 := h sampleTable (chatting (lit "a")) BackspaceEvent (by decide) (by decide)
  rcases h1 with h1 | ⟨t, h1⟩
  · exact Event.noConfusion h1
  · exact Event.noConfusion h1

/-- Claim C13, amended. `ConnStartedEvent` and `SentMessageEvent` empty the input
whatever it was and whatever the chat flag; and when an event empties a non-empty
input, the event is one of those two, or the chat is open and the event is a
`BackspaceEvent` or a `KeypressEvent`. A `KeypressEvent` never empties a non-empty
sanitised input. -/
theorem input_reset_events (tbl : Int → Bool) (s : State) :
    (StateReducer tbl s ConnStartedEvent).Input = [] ∧
    (∀ t, (StateReducer tbl s (SentMessageEvent t)).Input = []) ∧
    (∀ e, s.Input ≠ [] → (StateReducer tbl s e).Input = [] →
      e = ConnStartedEvent ∨ (∃ t, e = SentMessageEvent t) ∨
        (s.ChatActive = true ∧ (e = BackspaceEvent ∨ ∃ r, e = KeypressEvent r))) ∧
    (∀ r, s.Input ≠ [] → Sanitised tbl s.Input →
      (StateReducer tbl s (KeypressEvent r)).Input ≠ []) := by
  refine ⟨rfl, fun _ => rfl, ?_, ?_⟩
  · intro e hne hE
    rw [StateReducer_Input, inputReducer_chatActive] at hE
    cases e with
    | ConnStartedEvent => exact Or.inl rfl
    | SentMessageEvent t => exact Or.inr (Or.inl ⟨t, rfl⟩)
    | KeypressEvent r =>
      cases hb : s.ChatActive
      · rw [hb] at hE; exact absurd hE hne
      · exact Or.inr (Or.inr ⟨rfl, Or.inr ⟨r, rfl⟩⟩)
    | BackspaceEvent =>
      cases hb : s.ChatActive
      · rw [hb] at hE; exact absurd hE hne
      · exact Or.inr (Or.inr ⟨rfl, Or.inl rfl⟩)
    | _ => exact absurd hE hne
  · intro r hne hS
    rw [StateReducer_Input, inputReducer_chatActive]
    cases hb : s.ChatActive
    · exact hne
    · rw [keypress_sanitised tbl _ r (sanitised_print tbl _ hS), rangeRunes_cons _ hne,
        List.cons_append]
      exact encodeRunes_ne_nil _ _

/-- Claim C13 amended, at a concrete state: backspace on "a" with the chat open is
the third case, and a keypress on "a" leaves a non-empty input. -/
theorem input_reset_events_witness :
    (chatting (lit "a")).ChatActive = true ∧
    (StateReducer sampleTable (chatting (lit "a")) (KeypressEvent 0x1B)).Input ≠ [] :=
  ⟨rfl, (input_reset_events sampleTable (chatting (lit "a"))).2.2.2 0x1B (by decide)
    (by decide)⟩

/-- Claim C14. `helpOnReducer` negates the flag on `ToggleHelpEvent`, gives false on
`SkipEvent` and on `SentMessageEvent`, and returns the flag on every other event. -/
theorem helpOnReducer_table (h : Bool) :
    helpOnReducer h ToggleHelpEvent = !h ∧
    helpOnReducer h SkipEvent = false ∧
    (∀ t, helpOnReducer h (SentMessageEvent t) = false) ∧
    (∀ e, e ≠ ToggleHelpEvent → e ≠ SkipEvent → (∀ t, e ≠ SentMessageEvent t) →
      helpOnReducer h e = h) := by
  refine ⟨rfl, rfl, fun _ => rfl, ?_⟩
  intro e h1 h2 h3
  cases e <;>
    first
    | rfl
    | exact absurd rfl h1
    | exact absurd rfl h2
    | exact absurd rfl (h3 _)

/-- Claim C15 as stated fails at a `FrameEvent` that carries the absent image: it is
the nil event, and `imageReducer` keeps the present image 1 instead of returning the
absent one. -/
theorem nil_frame_keeps_image :
    imageReducer (some 1) (FrameEvent none) = some 1 ∧
    ¬ ∀ (i img : Image), imageReducer i (FrameEvent img) = img := by
  refine ⟨rfl, ?_⟩
  intro h
  exact absurd (h (some 1) none) (by decide)

/-- Claim C15, amended. `imageReducer` returns the frame of a `FrameEvent` that
carries a present image, whatever the prior image; a `FrameEvent` that carries the
absent image leaves the prior image; `SetPageEvent` and `SkipEvent` give the absent
image; and a present image becomes absent on those two events only. -/
theorem imageReducer_table (i : Image) :
    (∀ n, imageReducer i (FrameEvent (some n)) = some n) ∧
    imageReducer i (FrameEvent none) = i ∧
    (∀ p, imageReducer i (SetPageEvent p) = none) ∧
    imageReducer i SkipEvent = none ∧
    (∀ e, i ≠ none → imageReducer i e = none →
      (∃ p, e = SetPageEvent p) ∨ e = SkipEvent) := by
  refine ⟨fun _ => rfl, rfl, fun _ => rfl, rfl, ?_⟩
  intro e hi he
  cases e with
  | FrameEvent img =>
    cases img with
    | none => exact absurd he hi
    | some n => exact absurd he (by simp [imageReducer])
  | SetPageEvent p => exact Or.inl ⟨p, rfl⟩
  | SkipEvent => exact Or.inr rfl
  | _ => exact absurd he hi

/-- Claim C16. Page and window size are plain setters: `SetPageEvent p` sets the page
to `p`, any value, and keeps the window size; `ResizeEvent w` sets the window size to
`w`, any rows and columns, and keeps every other field. -/
theorem setters_overwrite (tbl : Int → Bool) (s : State) (p : Page) (w : WinSize) :
    (StateReducer tbl s (SetPageEvent p)).Page = p ∧
    (StateReducer tbl s (SetPageEvent p)).WinSize = s.WinSize ∧
    StateReducer tbl s (ResizeEvent w) = { s with WinSize := w } ∧
    (StateReducer tbl s (ResizeEvent { Rows := 0, Cols := 0 })).WinSize =
      { Rows := 0, Cols := 0 } :=
  ⟨rfl, rfl, rfl, rfl⟩

/-- Claim C17. Typing works on a clean buffer: with the chat open, an input that is
the UTF-8 encoding of printable code points `cs` and a printable rune `r`, the input
after `KeypressEvent r` is the prior input followed by `string(r)`; nothing is
removed by the pattern or by the printability filter. -/
theorem typing_appends (tbl : Int → Bool) (s : State) (cs : List Int) (r : Int)
    (ht : PrintTable tbl) (hA : s.ChatActive = true)
    (hcs : ∀ c ∈ cs, IsPrint tbl c = true) (hI : s.Input = encodeRunes cs)
    (hr : IsPrint tbl r = true) :
    (StateReducer tbl s (KeypressEvent r)).Input = s.Input ++ EncodeRune r ∧
    (StateReducer tbl s (KeypressEvent r)).Input = encodeRunes (cs ++ [r]) := by
  have hcs2 : ∀ c ∈ cs, ValidRune c ∧ IsPrint tbl c = true :=
    fun c hc => ⟨valid_of_print tbl ht c (hcs c hc), hcs c hc⟩
  have hk := keypress_encoded tbl cs r hcs2 (valid_of_print tbl ht r hr)
  rw [if_pos hr] at hk
  have h1 : (StateReducer tbl s (KeypressEvent r)).Input = s.Input ++ EncodeRune r := by
    rw [StateReducer_Input, inputReducer_chatActive, hA, hI, hk]
  refine ⟨h1, ?_⟩
  rw [h1, hI, encodeRunes_append]
  simp [encodeRunes]

/-- Claim C17, at a concrete input: typing the euro sign after "hi" gives the bytes
of "hi" followed by E2 82 AC. -/
theorem typing_appends_witness :
    PrintTable sampleTable ∧ (chatting (lit "hi")).ChatActive = true ∧
    (∀ c ∈ [(0x68 : Int), 0x69], IsPrint sampleTable c = true) ∧
    (chatting (lit "hi")).Input = encodeRunes [0x68, 0x69] ∧
    IsPrint sampleTable 0x20AC = true ∧
    (StateReducer sampleTable (chatting (lit "hi")) (KeypressEvent 0x20AC)).Input =
      (chatting (lit "hi")).Input ++ EncodeRune 0x20AC :=
  ⟨sampleTable_ok, rfl, by decide, by decide, by decide,
    (typing_appends sampleTable (chatting (lit "hi")) [0x68, 0x69] 0x20AC sampleTable_ok rfl
      (by decide) (by decide) (by decide)).1⟩

/-- Claim C18 as stated fails for a rune that is no code point: `-1` is not
printable, and with the chat open and input "hi" the keypress `-1` leaves "hi"
followed by the replacement character U+FFFD (bytes EF BF BD), which is printable. -/
theorem keypress_invalid_rune_kept :
    ¬ ∀ (tbl : Int → Bool), PrintTable tbl → ∀ (s : State) (cs : List Int) (r : Int),
      s.ChatActive = true → (∀ c ∈ cs, IsPrint tbl c = true) →
      s.Input = encodeRunes cs → IsPrint tbl r = false →
      (StateReducer tbl s (KeypressEvent r)).Input = s.Input := by
  intro h
  have h1 := h sampleTable sampleTable_ok (chatting (lit "hi")) [0x68, 0x69] (-1) rfl
    (by decide) (by decide) (by decide)
  have h2 : (StateReducer sampleTable (chatting (lit "hi")) (KeypressEvent (-1))).Input =
      lit "hi" ++ [0xEF, 0xBF, 0xBD] := by decide
  rw [h2] at h1
  exact absurd h1 (by decide)

/-- Claim C18, amended. With the chat open and an input that is the UTF-8 encoding of
printable code points, the keypress of a code point `r` (a scalar value) that is not
printable, ESC and CSI among them, leaves the input as it is. -/
theorem unprintable_discarded (tbl : Int → Bool) (s : State) (cs : List Int) (r : Int)
    (hA : s.ChatActive = true) (hcs : ∀ c ∈ cs, ValidRune c ∧ IsPrint tbl c = true)
    (hI : s.Input = encodeRunes cs) (hv : ValidRune r) (hr : IsPrint tbl r = false) :
    (StateReducer tbl s (KeypressEvent r)).Input = s.Input ∧
    IsPrint tbl 0x1B = false ∧ IsPrint tbl 0x9B = false := by
  have hk := keypress_encoded tbl cs r hcs hv
  rw [if_neg (by rw [hr]; simp)] at hk
  refine ⟨?_, rfl, rfl⟩
  rw [StateReducer_Input, inputReducer_chatActive, hA, hI, hk]

/-- Claim C18 amended, at a concrete input: ESC typed after "hi" leaves "hi". -/
theorem unprintable_discarded_witness :
    (chatting (lit "hi")).ChatActive = true ∧
    (∀ c ∈ [(0x68 : Int), 0x69], ValidRune c ∧ IsPrint sampleTable c = true) ∧
    (chatting (lit "hi")).Input = encodeRunes [0x68, 0x69] ∧
    ValidRune 0x1B ∧ IsPrint sampleTable 0x1B = false ∧
    (StateReducer sampleTable (chatting (lit "hi")) (KeypressEvent 0x1B)).Input =
      (chatting (lit "hi")).Input :=
  ⟨rfl, by decide, by decide, by decide, by decide,
    (unprintable_discarded sampleTable (chatting (lit "hi")) [0x68, 0x69] 0x1B rfl
      (by decide) (by decide) (by decide) (by decide)).1⟩

/-- Claim C19. Backspace undoes a keypress: with the chat open, an input that is the
UTF-8 encoding of printable code points and a printable rune `r` of any encoded width,
`KeypressEvent r` followed by `BackspaceEvent` gives back the input. -/
theorem backspace_undoes_keypress (tbl : Int → Bool) (s : State) (cs : List Int) (r : Int)
    (ht : PrintTable tbl) (hA : s.ChatActive = true)
    (hcs : ∀ c ∈ cs, IsPrint tbl c = true) (hI : s.Input = encodeRunes cs)
    (hr : IsPrint tbl r = true) :
    (StateReducer tbl (StateReducer tbl s (KeypressEvent r)) BackspaceEvent).Input =
      s.Input := by
  have hcs2 : ∀ c ∈ cs, ValidRune c ∧ IsPrint tbl c = true :=
    fun c hc => ⟨valid_of_print tbl ht c (hcs c hc), hcs c hc⟩
  have hv := valid_of_print tbl ht r hr
  have hk := keypress_encoded tbl cs r hcs2 hv
  rw [if_pos hr] at hk
  have h1 : (StateReducer tbl s (KeypressEvent r)).Input = encodeRunes cs ++ EncodeRune r := by
    rw [StateReducer_Input, inputReducer_chatActive, hA, hI, hk]
  have h2 : (StateReducer tbl s (KeypressEvent r)).ChatActive = true := by
    rw [StateReducer_ChatActive, hA]; rfl
  have hlen := encode_length r
  have hne : ¬ ((encodeRunes cs ++ EncodeRune r).length = 0) := by
    rw [List.length_append]; omega
  rw [StateReducer_Input, inputReducer_chatActive, h1, h2, hI]
  simp only [inputReducer, Bool.not_true, Bool.false_eq_true, if_false, hne]
  rw [decodeLast_encode _ r hv]
  simp only [List.length_append, Nat.add_sub_cancel]
  exact List.take_left' rfl

/-- Claim C19, at a concrete input: typing the four-byte rune U+1F600 after "hi" and
then backspace gives "hi" back. -/
theorem backspace_undoes_keypress_witness :
    PrintTable (fun x => decide (0x100 ≤ x ∧ x ≤ 0x10FFFF ∧ ¬ (0xD800 ≤ x ∧ x ≤ 0xDFFF))) ∧
    (StateReducer (fun x => decide (0x100 ≤ x ∧ x ≤ 0x10FFFF ∧ ¬ (0xD800 ≤ x ∧ x ≤ 0xDFFF)))
      (StateReducer (fun x => decide (0x100 ≤ x ∧ x ≤ 0x10FFFF ∧ ¬ (0xD800 ≤ x ∧ x ≤ 0xDFFF)))
        (chatting (lit "hi")) (KeypressEvent 0x1F600)) BackspaceEvent).Input = lit "hi" :=
  have ht : PrintTable
      (fun x => decide (0x100 ≤ x ∧ x ≤ 0x10FFFF ∧ ¬ (0xD800 ≤ x ∧ x ≤ 0xDFFF))) :=
    ⟨fun x hx => by
      simp only [decide_eq_true_eq] at hx
      unfold ValidRune
      omega, by decide⟩
  ⟨ht, backspace_undoes_keypress _ (chatting (lit "hi")) [0x68, 0x69] 0x1F600 ht rfl
    (by decide) (by decide) (by decide)⟩

/-! ## An escape sequence typed rune by rune -/

/-- With the chat open, typing the scalar values `w` one keypress each on the encoding
of printable scalar values `cs` leaves the encoding of `cs` followed by the printable
runes of `w`, and the chat open. -/
theorem keypresses_fold (tbl : Int → Bool) : ∀ (w : List Int) (s : State) (cs : List Int),
    s.ChatActive = true → (∀ c ∈ cs, ValidRune c ∧ IsPrint tbl c = true) →
    s.Input = encodeRunes cs → (∀ r ∈ w, ValidRune r) →
    (run tbl s (w.map KeypressEvent)).Input =
      encodeRunes (cs ++ w.filter (fun r => IsPrint tbl r)) := by
  intro w
  induction w with
  | nil =>
    intro s cs _ _ hI _
    simp [run, hI]
  | cons r w ih =>
    intro s cs hA hcs hI hw
    have hv : ValidRune r := hw r (by simp)
    have hk := keypress_encoded tbl cs r hcs hv
    have hA1 : (StateReducer tbl s (KeypressEvent r)).ChatActive = true := by
      rw [StateReducer_ChatActive, hA]; rfl
    have hstep : run tbl s ((r :: w).map KeypressEvent) =
        run tbl (StateReducer tbl s (KeypressEvent r)) (w.map KeypressEvent) := rfl
    rw [hstep]
    by_cases hp : IsPrint tbl r = true
    · rw [if_pos hp] at hk
      have hI1 : (StateReducer tbl s (KeypressEvent r)).Input = encodeRunes (cs ++ [r]) := by
        rw [StateReducer_Input, inputReducer_chatActive, hA, hI, hk, encodeRunes_append]
        simp [encodeRunes]
      have hcs1 : ∀ c ∈ cs ++ [r], ValidRune c ∧ IsPrint tbl c = true := by
        intro c hc
        rcases List.mem_append.1 hc with hc | hc
        · exact hcs c hc
        · simp at hc; subst hc; exact ⟨hv, hp⟩
      rw [ih _ (cs ++ [r]) hA1 hcs1 hI1 (fun x hx => hw x (by simp [hx]))]
      simp [List.filter_cons, hp]
    · rw [if_neg hp] at hk
      have hI1 : (StateReducer tbl s (KeypressEvent r)).Input = encodeRunes cs := by
        rw [StateReducer_Input, inputReducer_chatActive, hA, hI, hk]
      rw [ih _ cs hA1 hcs hI1 (fun x hx => hw x (by simp [hx]))]
      simp [List.filter_cons, hp]

/-- A string of scalar values that `ansiRegex` matches starts with ESC or CSI. -/
theorem match_head_intro (w : List Int) (hw : ∀ r ∈ w, ValidRune r)
    (hm : matchRe ansiRegex (encodeRunes w) ≠ []) :
    ∃ r w', w = r :: w' ∧ isIntro r = true := by
  rcases w with _ | ⟨r, w'⟩
  · exact absurd rfl hm
  · refine ⟨r, w', rfl, ?_⟩
    by_contra hi
    apply hm
    apply matchRe_ansi_nil
    have hd := decode_encode r (hw r (by simp)) (encodeRunes w')
    simp only [encodeRunes]
    rw [hd]
    simpa using hi

/-- Claim C3, amended. With the chat open and an input made only of printable code
points, typing a string `w` that `ansiRegex` matches, one keypress per code point,
leaves the input followed by the printable code points of `w`: the ESC or CSI that
starts `w` is not printable and is dropped by its own keypress, and what follows it is
kept as text unless it is unprintable itself. From "hi" the keypresses ESC, `[`, `3`,
`1`, `m`, `!` leave "hi[31m!". -/
theorem split_escape_tail_kept (tbl : Int → Bool) (s : State) (cs w : List Int)
    (hA : s.ChatActive = true) (hcs : ∀ c ∈ cs, ValidRune c ∧ IsPrint tbl c = true)
    (hI : s.Input = encodeRunes cs) (hw : ∀ r ∈ w, ValidRune r)
    (hm : [] ∈ matchRe ansiRegex (encodeRunes w)) :
    (run tbl s (w.map KeypressEvent)).Input =
      s.Input ++ encodeRunes (w.filter (fun r => IsPrint tbl r)) ∧
    (∃ r w', w = r :: w' ∧ isIntro r = true ∧ IsPrint tbl r = false ∧
      w.filter (fun r => IsPrint tbl r) = w'.filter (fun r => IsPrint tbl r)) ∧
    (run tbl (chatting (lit "hi"))
      [KeypressEvent 0x1B, KeypressEvent 0x5B, KeypressEvent 0x33, KeypressEvent 0x31,
        KeypressEvent 0x6D, KeypressEvent 0x21]).Input = lit "hi[31m!" := by
  refine ⟨?_, ?_, escape_example_run tbl⟩
  · rw [keypresses_fold tbl w s cs hA hcs hI hw, hI, encodeRunes_append]
  · obtain ⟨r, w', rfl, hi⟩ := match_head_intro w hw (List.ne_nil_of_mem hm)
    have hp : IsPrint tbl r = false := by
      cases h : IsPrint tbl r
      · rfl
      · rw [isIntro_of_print tbl r h] at hi
        exact absurd hi (by simp)
    exact ⟨r, w', rfl, hi, hp, by simp [List.filter_cons, hp]⟩

/-- Claim C3 amended, at a concrete input: ESC `[31m`, which `ansiRegex` matches,
typed after "hi" leaves "hi" followed by the text `[31m`. -/
theorem split_escape_tail_kept_witness :
    (chatting (lit "hi")).ChatActive = true ∧
    (∀ c ∈ [(0x68 : Int), 0x69], ValidRune c ∧ IsPrint sampleTable c = true) ∧
    (chatting (lit "hi")).Input = encodeRunes [0x68, 0x69] ∧
    (∀ r ∈ [(0x1B : Int), 0x5B, 0x33, 0x31, 0x6D], ValidRune r) ∧
    [] ∈ matchRe ansiRegex (encodeRunes [0x1B, 0x5B, 0x33, 0x31, 0x6D]) ∧
    (run sampleTable (chatting (lit "hi"))
      ([0x1B, 0x5B, 0x33, 0x31, 0x6D].map KeypressEvent)).Input =
      (chatting (lit "hi")).Input ++
        encodeRunes ([0x1B, 0x5B, 0x33, 0x31, 0x6D].filter (fun r => IsPrint sampleTable r)) :=
  ⟨rfl, by decide, by decide, by decide, by decide,
    (split_escape_tail_kept sampleTable (chatting (lit "hi")) [0x68, 0x69]
      [0x1B, 0x5B, 0x33, 0x31, 0x6D] rfl (by decide) (by decide) (by decide) (by decide)).1⟩

end AsciiRoulette
